import Mathlib

/-!
Verification of the ETree component of sonLib (`sonLibETree.c`).

The development shallowly embeds the code:

* C `double` branch lengths are modelled by `D`: either the sentinel
  `INFINITY` (set by `eTree_construct`), negative infinity, or a finite
  rational value.  NaN and hexadecimal float literals are outside the model
  (the spec's "exotic floating formatting edge cases").
* `printf "%f"` formatting is modelled by `printD` (six fractional digits,
  rounding to nearest), and `sscanf "%lf"` by `parseDouble` (longest valid
  numeric token, optional sign, optional fraction and exponent, `inf`
  forms).  Rational values are computed through `mkRat` and integer
  arithmetic so that all definitions evaluate by kernel reduction.
* Trees built by `eTree_construct`/`eTree_setParent` during parsing are
  fresh, disjoint nodes, so the parser and serializer act on a pure rose
  tree `PTree`.  The aliasing behaviour of `eTree_setParent` itself is
  modelled separately by an explicit heap state `ETreeState`.
* The string utilities (`stString_replace`, `stString_getNextWord`) are
  external collaborators of the core; they are modelled from their header
  documentation (replace every occurrence; split on whitespace).
-/

/-- Model of the C `double` values relevant to `sonLibETree.c`:
the sentinel `INFINITY`, `-INFINITY`, and finite values as rationals.
NaN is outside the model. -/
inductive D where
  | inf : D
  | negInf : D
  | val : ℚ → D
deriving DecidableEq

/-- Numeric value of a decimal digit character. -/
def digitVal (c : Char) : Nat := c.toNat - 48

/-- Value of a list of decimal digit characters, most significant first. -/
def digitsVal (l : List Char) : Nat := l.foldl (fun a c => a * 10 + digitVal c) 0

/-- The character for the digit `d` (`d < 10`). -/
def toDigitChar (d : Nat) : Char := Char.ofNat (48 + d)

/-- Decimal digit characters of `n`, most significant first; `[]` for `0`.
Fuel-based so that it is structurally recursive (any `fuel ≥ n` works). -/
def natCharsFuel : Nat → Nat → List Char
  | 0, _ => []
  | f + 1, n => if n = 0 then [] else natCharsFuel f (n / 10) ++ [toDigitChar (n % 10)]

/-- Decimal representation of `n` (non-empty, `"0"` for zero). -/
def natChars (n : Nat) : List Char := if n = 0 then ['0'] else natCharsFuel n n

/-- `m < 10^6` printed with exactly six digits (leading zeros). -/
def padFrac6 (m : Nat) : List Char :=
  List.replicate (6 - (natCharsFuel m m).length) '0' ++ natCharsFuel m m

/-- `printf "%f"` applied to the value `n / 10^6`: sign, integer part,
point, six fractional digits. -/
def fmt6 (n : Int) : List Char :=
  (if n < 0 then ['-'] else []) ++ natChars (n.natAbs / 1000000)
    ++ '.' :: padFrac6 (n.natAbs % 1000000)

/-- `q * 10^6` rounded to the nearest integer (the digits `%f` prints):
`⌊(2·num·10^6 + den) / (2·den)⌋` computed by floor division. -/
def iround6 (q : ℚ) : Int := (q.num * 2000000 + (q.den : Int)).fdiv (2 * (q.den : Int))

/-- `printf "%f"` on a model double: six fractional digits, rounding to
nearest; infinities print as `inf`/`-inf`. -/
def printD : D → List Char
  | D.inf => ['i', 'n', 'f']
  | D.negInf => ['-', 'i', 'n', 'f']
  | D.val q => fmt6 (iround6 q)

/-- The value reconstructed after `%f` formatting: `q` rounded to six
fractional decimal digits. -/
def round6 (q : ℚ) : ℚ := mkRat (iround6 q) 1000000

/-- Branch-length value surviving a serialize/parse round trip. -/
def roundD : D → D
  | D.val q => D.val (round6 q)
  | d => d

/-- Negation, computed without the irreducible `Rat.neg`. -/
def qneg (q : ℚ) : ℚ := mkRat (-q.num) q.den

/-- `q * 10^k`, computed on the numerator. -/
def qscalePos (q : ℚ) (k : Nat) : ℚ := mkRat (q.num * (10 ^ k : Nat)) q.den

/-- `q / 10^k`, computed on the denominator. -/
def qscaleNeg (q : ℚ) (k : Nat) : ℚ := mkRat q.num (q.den * 10 ^ k)

/-- Exponent suffix of a float literal (`e`/`E`, optional sign, digits), as
accepted by `sscanf "%lf"`; anything after the mantissa that is not a
well-formed exponent is ignored (longest-valid-token semantics). -/
def applyExp (q : ℚ) (rem : List Char) : ℚ :=
  match rem with
  | c :: r =>
    if c = 'e' ∨ c = 'E' then
      match r with
      | '-' :: ds =>
        let es := ds.takeWhile Char.isDigit
        if es = [] then q else qscaleNeg q (digitsVal es)
      | '+' :: ds =>
        let es := ds.takeWhile Char.isDigit
        if es = [] then q else qscalePos q (digitsVal es)
      | ds =>
        let es := ds.takeWhile Char.isDigit
        if es = [] then q else qscalePos q (digitsVal es)
    else q
  | [] => q

/-- Unsigned numeric part of a `sscanf "%lf"` parse: digits, optional
point and fraction, optional exponent; fails when no digit is present. -/
def parseUDouble (l : List Char) : Option ℚ :=
  let ip := l.takeWhile Char.isDigit
  let r1 := l.dropWhile Char.isDigit
  match r1 with
  | '.' :: r2 =>
    let fp := r2.takeWhile Char.isDigit
    if ip = [] ∧ fp = [] then none
    else some (applyExp
      (mkRat (digitsVal ip * 10 ^ fp.length + digitsVal fp : Nat) (10 ^ fp.length))
      (r2.dropWhile Char.isDigit))
  | _ => if ip = [] then none else some (applyExp (mkRat (digitsVal ip : Nat) 1) r1)

/-- Signed numeric part after the sign has been consumed. -/
def parseNumPart (neg : Bool) (l : List Char) : Option D :=
  match parseUDouble l with
  | none => none
  | some q => some (D.val (if neg then qneg q else q))

/-- Body of a `sscanf "%lf"` parse after the optional sign: either an
`inf` form or a numeric literal. -/
def parseSigned (neg : Bool) (l : List Char) : Option D :=
  match l with
  | a :: b :: c :: _ =>
    if (a = 'i' ∨ a = 'I') ∧ (b = 'n' ∨ b = 'N') ∧ (c = 'f' ∨ c = 'F') then
      some (if neg then D.negInf else D.inf)
    else parseNumPart neg l
  | _ => parseNumPart neg l

/-- Model of `sscanf(token, "%lf", &d)`: succeeds iff the token begins
with a valid floating-point literal, whose value it returns; trailing
characters are ignored. -/
def parseDouble (t : List Char) : Option D :=
  match t with
  | '-' :: r => parseSigned true r
  | '+' :: r => parseSigned false r
  | _ => parseSigned false t

/-- A token produced by the whitespace tokenizer. -/
abbrev Token := List Char

/-- Pure rose-tree value of an `ETree` built from fresh nodes: ordered
children (insertion order), optional label, branch length. -/
inductive PTree where
  | node (children : List PTree) (label : Option (List Char)) (branchLength : D)

mutual

/-- Boolean equality on `PTree` (structural, so that it evaluates by
kernel reduction; `deriving DecidableEq` does not handle the nested
occurrence of `List`). -/
def PTree.beq : PTree → PTree → Bool
  | .node cs1 l1 b1, .node cs2 l2 b2 => PTree.beqL cs1 cs2 && l1 == l2 && b1 == b2

/-- Boolean equality on lists of `PTree`. -/
def PTree.beqL : List PTree → List PTree → Bool
  | [], [] => true
  | t :: ts, u :: us => PTree.beq t u && PTree.beqL ts us
  | _, _ => false

end

mutual

/-- Soundness of `PTree.beq`. -/
def PTree.eq_of_beq : ∀ a b : PTree, PTree.beq a b = true → a = b
  | .node cs1 l1 b1, .node cs2 l2 b2 => fun h => by
    simp only [PTree.beq, Bool.and_eq_true, beq_iff_eq] at h
    obtain ⟨⟨hcs, hl⟩, hb⟩ := h
    rw [PTree.eqL_of_beqL cs1 cs2 hcs, hl, hb]

/-- Soundness of `PTree.beqL`. -/
def PTree.eqL_of_beqL : ∀ a b : List PTree, PTree.beqL a b = true → a = b
  | [], [], _ => rfl
  | [], _ :: _, h => by simp [PTree.beqL] at h
  | _ :: _, [], h => by simp [PTree.beqL] at h
  | t :: ts, u :: us, h => by
    simp only [PTree.beqL, Bool.and_eq_true] at h
    rw [PTree.eq_of_beq t u h.1, PTree.eqL_of_beqL ts us h.2]

end

mutual

/-- Reflexivity of `PTree.beq`. -/
def PTree.beq_refl : ∀ a : PTree, PTree.beq a a = true
  | .node cs l b => by
    simp only [PTree.beq, Bool.and_eq_true, beq_iff_eq]
    exact ⟨⟨PTree.beqL_refl cs, trivial⟩, trivial⟩

/-- Reflexivity of `PTree.beqL`. -/
def PTree.beqL_refl : ∀ a : List PTree, PTree.beqL a a = true
  | [] => rfl
  | t :: ts => by
    simp only [PTree.beqL, Bool.and_eq_true]
    exact ⟨PTree.beq_refl t, PTree.beqL_refl ts⟩

end

instance : DecidableEq PTree := fun a b =>
  decidable_of_iff (PTree.beq a b = true)
    ⟨PTree.eq_of_beq a b, fun h => h ▸ PTree.beq_refl a⟩

/-- The children list of a node. -/
def PTree.children : PTree → List PTree
  | .node cs _ _ => cs

/-- The label of a node (`none` models a NULL `label` pointer). -/
def PTree.label : PTree → Option (List Char)
  | .node _ l _ => l

/-- The branch length of a node. -/
def PTree.branchLength : PTree → D
  | .node _ _ b => b

/-- `eTree_construct`: fresh node with no children, NULL label and branch
length `INFINITY`. -/
def eTree_construct : PTree := .node [] none D.inf

/-- `eTree_getBranchLength`. -/
def eTree_getBranchLength (t : PTree) : D := t.branchLength

/-- `eTree_setBranchLength`: stores the given value, no validation. -/
def eTree_setBranchLength (t : PTree) (distance : D) : PTree :=
  .node t.children t.label distance

/-- `eTree_getLabel`. -/
def eTree_getLabel (t : PTree) : Option (List Char) := t.label

/-- `stString_copy`, modelled from the header documentation: returns a
fresh copy of the string; at the level of values a copy is the string
itself. -/
def stString_copy (l : List Char) : List Char := l

/-- `eTree_setLabel`: frees any prior label and stores a copy of the
argument, or NULL when the argument is NULL. -/
def eTree_setLabel (t : PTree) (label : Option (List Char)) : PTree :=
  .node t.children (match label with | none => none | some l => some (stString_copy l))
    t.branchLength

/-- `eTree_getChildNumber` (an `int32_t` in C, hence `Int`). -/
def eTree_getChildNumber (t : PTree) : Int := t.children.length

/-- `eTree_getChild`: asserts `0 <= i < childNumber` and returns child
`i`; an assertion failure is modelled as `none`. -/
def eTree_getChild (t : PTree) (i : Int) : Option PTree :=
  if h : 0 ≤ i ∧ i < eTree_getChildNumber t then
    some (t.children.get ⟨i.toNat, by
      have h2 := h.2
      simp only [eTree_getChildNumber] at h2
      omega⟩)
  else none

mutual

/-- `eTree_getNewickTreeStringP`: children in parentheses joined by
commas (when any), then the label (when set), then `:`+branchlength
(when the branch length is not the sentinel `INFINITY`). -/
def eTree_getNewickTreeStringP : PTree → List Char
  | .node cs lbl bl =>
    (match cs with
     | [] => []
     | _ => '(' :: serializeList cs ++ [')'])
    ++ (match lbl with | none => [] | some l => l)
    ++ (match bl with | D.inf => [] | b => ':' :: printD b)

/-- The comma-joined serializations of a child list (the `for` loop of
`eTree_getNewickTreeStringP`). -/
def serializeList : List PTree → List Char
  | [] => []
  | [t] => eTree_getNewickTreeStringP t
  | t :: ts => eTree_getNewickTreeStringP t ++ ',' :: serializeList ts

end

/-- `eTree_getNewickTreeString`: the subtree serialization plus the
terminating `;`. -/
def eTree_getNewickTreeString (t : PTree) : String :=
  ⟨eTree_getNewickTreeStringP t ++ [';']⟩

/-- C `isspace` (`C` locale): space, tab, newline, vertical tab, form
feed, carriage return. -/
def isSpaceC (c : Char) : Bool :=
  c == ' ' || c == '\t' || c == '\n' || c == Char.ofNat 11 || c == Char.ofNat 12 || c == '\r'

/-- `stString_replace` for a single-character pattern (the only use in
`eTree_parseNewickString`), modelled from the header documentation:
every occurrence of `t` is replaced by `r`. -/
def replaceChar (l : List Char) (t : Char) (r : List Char) : List Char :=
  match l with
  | [] => []
  | c :: cs => (if c = t then r else [c]) ++ replaceChar cs t r

/-- The five `stString_replace` calls of `eTree_parseNewickString`:
surround each structural character with spaces. -/
def expandTokens (l : List Char) : List Char :=
  replaceChar (replaceChar (replaceChar (replaceChar
    (replaceChar l '(' [' ', '(', ' ']) ')' [' ', ')', ' ']) ':' [' ', ':', ' '])
    ',' [' ', ',', ' ']) ';' [' ', ';', ' ']

/-- Emit the word accumulated so far (most recent character first), if
any, in front of `ws`. -/
def flushWord (acc : List Char) (ws : List Token) : List Token :=
  if acc = [] then ws else acc.reverse :: ws

/-- Accumulator pass splitting a character list into maximal runs of
non-whitespace characters. -/
def wordsAux : List Char → List Char → List Token
  | [], acc => flushWord acc []
  | c :: cs, acc =>
    if isSpaceC c then flushWord acc (wordsAux cs []) else wordsAux cs (c :: acc)

/-- The token list produced by repeated `stString_getNextWord` calls:
maximal whitespace-separated words. -/
def stString_getWords (l : List Char) : List Token := wordsAux l []

/-- The token stream `eTree_parseNewickString` works through: structural
characters spaced out, then split on whitespace. -/
def tokenize (l : List Char) : List Token := stString_getWords (expandTokens l)

/-- `eTree_parseNewickString_getLabel`: a current token whose first
character is not one of `:`, `,`, `;`, `)` becomes the label and is
consumed (the following token must exist); otherwise the label stays
NULL.  `none` models an assertion failure in `getNextToken`. -/
def getLabelHelper : List Token → Option (Option (List Char) × List Token)
  | [] => none
  | t :: ts =>
    if t.head? = some ':' ∨ t.head? = some ',' ∨ t.head? = some ';' ∨ t.head? = some ')' then
      some (none, t :: ts)
    else
      match ts with
      | [] => none
      | _ => some (some (stString_copy t), ts)

/-- `eTree_parseNewickString_getBranchLength`: when the current token
starts with `:`, the next token must `sscanf` as a double, which becomes
the branch length, and both tokens are consumed; otherwise the branch
length stays the constructed `INFINITY`.  `none` models an assertion
failure (missing token or unparseable number). -/
def getBLHelper : List Token → Option (D × List Token)
  | [] => none
  | t :: ts =>
    if t.head? = some ':' then
      match ts with
      | [] => none
      | u :: us =>
        match parseDouble u with
        | none => none
        | some d =>
          match us with
          | [] => none
          | _ => some (d, us)
    else some (D.inf, t :: ts)

/-- The label/branch-length/termination-check tail of
`eTree_parseNewickStringP`, building the node from the parsed children:
the token left at the end must start with `,`, `;` or `)`. -/
def afterChildren (cs : List PTree) (toks : List Token) : Option (PTree × List Token) :=
  match getLabelHelper toks with
  | none => none
  | some (lbl, toks1) =>
    match getBLHelper toks1 with
    | none => none
    | some (bl, toks2) =>
      match toks2 with
      | [] => none
      | u :: _ =>
        if u.head? = some ',' ∨ u.head? = some ';' ∨ u.head? = some ')' then
          some (PTree.node cs lbl bl, toks2)
        else none

mutual

/-- `eTree_parseNewickStringP` on the token stream (current token at the
head), fuel-indexed for structural recursion: an opening parenthesis
introduces a comma-separated child list closed by `)`, then label and
branch length follow.  `none` models an assertion failure. -/
def parseSubtree : Nat → List Token → Option (PTree × List Token)
  | 0, _ => none
  | _ + 1, [] => none
  | f + 1, t :: ts =>
    if t.head? = some '(' then
      if t.length = 1 then
        match ts with
        | [] => none
        | _ =>
          match parseChildren f ts with
          | none => none
          | some (cs, toks1) =>
            match toks1 with
            | [] => none
            | u :: us =>
              if u.head? = some ')' then
                match us with
                | [] => none
                | _ => afterChildren cs us
              else none
      else none
    else afterChildren [] (t :: ts)

/-- The `while(1)` child loop of `eTree_parseNewickStringP`: parse a
child, then continue after `,` or stop on any other single-character
token (the caller checks it is `)`). -/
def parseChildren : Nat → List Token → Option (List PTree × List Token)
  | 0, _ => none
  | f + 1, toks =>
    match parseSubtree f toks with
    | none => none
    | some (c, toks1) =>
      match toks1 with
      | [] => none
      | u :: us =>
        if u.length = 1 then
          if u = [','] then
            match us with
            | [] => none
            | _ =>
              match parseChildren f us with
              | none => none
              | some (cs, toks2) => some (c :: cs, toks2)
          else some ([c], u :: us)
        else none

end

/-- `eTree_parseNewickString` on a character list: normalize, tokenize,
parse one subtree, and require the terminating token to start with `;`.
The fuel `2·|tokens| + 2` dominates the recursion depth of the parser
(each nesting level consumes `(` and each loop step consumes `,`). -/
def eTree_parseNewickStringL (l : List Char) : Option PTree :=
  let toks := tokenize l
  match toks with
  | [] => none
  | _ =>
    match parseSubtree (2 * toks.length + 2) toks with
    | none => none
    | some (t, rest) =>
      match rest with
      | [] => none
      | u :: _ => if u.head? = some ';' then some t else none

/-- `eTree_parseNewickString` on a C string. -/
def eTree_parseNewickString (s : String) : Option PTree :=
  eTree_parseNewickStringL s.data

/-- Heap state for the mutable parent/child structure of `ETree` nodes:
node identities are natural numbers; every identity starts out as a
freshly constructed node (`parent` NULL, empty child list), which is
exactly what `eTree_construct` produces. -/
structure ETreeState where
  parent : Nat → Option Nat
  children : Nat → List Nat

/-- The state in which every node is freshly constructed. -/
def initState : ETreeState := ⟨fun _ => none, fun _ => []⟩

/-- The conditional `listRemove` of `eTree_setParent`: when the old
parent `op` exists, remove one occurrence of `n` from its child list
(`listRemove` is the external list collaborator removing a value, i.e.
`List.erase`). -/
def childErase (ch : Nat → List Nat) (op : Option Nat) (n : Nat) : Nat → List Nat :=
  match op with
  | some q => Function.update ch q ((ch q).erase n)
  | none => ch

/-- The conditional `listAppend` of `eTree_setParent`: when the new
parent `p` is non-NULL, append `n` to its child list. -/
def childAppend (ch : Nat → List Nat) (p : Option Nat) (n : Nat) : Nat → List Nat :=
  match p with
  | some pp => Function.update ch pp (ch pp ++ [n])
  | none => ch

/-- `eTree_setParent(n, p)` on the heap: remove `n` from its old
parent's child list (if any), store the new parent pointer, and append
`n` to the new parent's child list (if non-NULL). -/
def eTree_setParent (s : ETreeState) (n : Nat) (p : Option Nat) : ETreeState :=
  ⟨Function.update s.parent n p, childAppend (childErase s.children (s.parent n) n) p n⟩

/-- A sequence of `eTree_setParent` operations, applied in order. -/
def applyOps (ops : List (Nat × Option Nat)) (s : ETreeState) : ETreeState :=
  ops.foldl (fun s op => eTree_setParent s op.1 op.2) s

/-- Follow `k` parent links from node `m` (`none` when a NULL parent is
reached first). -/
def parentIterN (s : ETreeState) : Nat → Nat → Option Nat
  | 0, m => some m
  | k + 1, m =>
    match s.parent m with
    | none => none
    | some q => parentIterN s k q

/-- The single-parent invariant: a node with a parent occurs exactly
once in that parent's child list, and membership in any child list
implies being that node's child (so no node occurs in two lists, and a
detached node occurs in none). -/
def WF (s : ETreeState) : Prop :=
  ∀ n : Nat, (∀ p, s.parent n = some p → (s.children p).count n = 1) ∧
    (∀ q, n ∈ s.children q → s.parent n = some q)

/-- The five structural characters of the Newick grammar. -/
def isStructuralC (c : Char) : Bool :=
  c == '(' || c == ')' || c == ':' || c == ',' || c == ';'

/-- A label with no whitespace and none of the structural characters
(the condition stated by the round-trip claim). -/
def specLabelB (l : List Char) : Bool := l.all (fun c => !isSpaceC c && !isStructuralC c)

/-- A non-empty label with no whitespace and none of the structural
characters. -/
def goodLabelB (l : List Char) : Bool := !l.isEmpty && specLabelB l

mutual

/-- All labels of the tree satisfy `specLabelB` (the round-trip claim's
stated hypothesis on labels). -/
def specGoodTree : PTree → Bool
  | .node cs lbl _ =>
    (match lbl with | none => true | some l => specLabelB l) && specGoodTreeL cs

/-- `specGoodTree` on a child list. -/
def specGoodTreeL : List PTree → Bool
  | [] => true
  | t :: ts => specGoodTree t && specGoodTreeL ts

end

mutual

/-- All labels of the tree are non-empty, whitespace-free and free of
structural characters. -/
def goodTree : PTree → Bool
  | .node cs lbl _ =>
    (match lbl with | none => true | some l => goodLabelB l) && goodTreeL cs

/-- `goodTree` on a child list. -/
def goodTreeL : List PTree → Bool
  | [] => true
  | t :: ts => goodTree t && goodTreeL ts

end

mutual

/-- The tree with every finite branch length rounded to the precision of
the `%f` format (what a serialize/parse round trip reconstructs). -/
def roundT : PTree → PTree
  | .node cs lbl bl => .node (roundTL cs) lbl (roundD bl)

/-- `roundT` on a child list. -/
def roundTL : List PTree → List PTree
  | [] => []
  | t :: ts => roundT t :: roundTL ts

end

mutual

/-- All labels occurring anywhere in the tree. -/
def labelsOf : PTree → List (List Char)
  | .node cs lbl _ =>
    (match lbl with | none => [] | some l => [l]) ++ labelsOfL cs

/-- `labelsOf` on a child list. -/
def labelsOfL : List PTree → List (List Char)
  | [] => []
  | t :: ts => labelsOf t ++ labelsOfL ts

end

mutual

/-- The token list of the serialization of a tree: parenthesized child
tokens joined by commas, then the label token, then `:` and the printed
branch length when set. -/
def tokensS : PTree → List Token
  | .node cs lbl bl =>
    (match cs with
     | [] => []
     | _ => ['('] :: tokensJoin cs ++ [[')']])
    ++ (match lbl with | none => [] | some l => [l])
    ++ (match bl with | D.inf => [] | b => [[':'], printD b])

/-- The comma-joined token lists of a child list. -/
def tokensJoin : List PTree → List Token
  | [] => []
  | [t] => tokensS t
  | t :: ts => tokensS t ++ [','] :: tokensJoin ts

end

/-- The children-and-label part of a node's serialization (everything
before the branch-length suffix). -/
def childLabelPart (t : PTree) : List Char :=
  (match t.children with
   | [] => []
   | _ => '(' :: serializeList t.children ++ [')'])
  ++ (match t.label with | none => [] | some l => l)

/-- The branch-length suffix of a node's serialization: empty exactly
when the branch length is the sentinel `INFINITY`. -/
def lengthSuffix (t : PTree) : List Char :=
  match t.branchLength with
  | D.inf => []
  | b => ':' :: printD b

/-- Single-character view of the five structural replacements. -/
def expandChar (c : Char) : List Char := if isStructuralC c then [' ', c, ' '] else [c]

/-- `expandTokens` as a single pass over the characters. -/
def flatExpand : List Char → List Char
  | [] => []
  | c :: cs => expandChar c ++ flatExpand cs

mutual

/-- Mutual structural induction for `PTree`, tree part. -/
def PTree.indT (P : PTree → Prop) (Q : List PTree → Prop)
    (h1 : ∀ cs lbl bl, Q cs → P (.node cs lbl bl)) (h2 : Q [])
    (h3 : ∀ t ts, P t → Q ts → Q (t :: ts)) : ∀ t : PTree, P t
  | .node cs lbl bl => h1 cs lbl bl (PTree.indL P Q h1 h2 h3 cs)

/-- Mutual structural induction for `PTree`, list part. -/
def PTree.indL (P : PTree → Prop) (Q : List PTree → Prop)
    (h1 : ∀ cs lbl bl, Q cs → P (.node cs lbl bl)) (h2 : Q [])
    (h3 : ∀ t ts, P t → Q ts → Q (t :: ts)) : ∀ ts : List PTree, Q ts
  | [] => h2
  | t :: ts => h3 t ts (PTree.indT P Q h1 h2 h3 t) (PTree.indL P Q h1 h2 h3 ts)

end

/-- The label characters a node contributes to its serialization. -/
def lblChars : Option (List Char) → List Char
  | none => []
  | some l => l

/-- The label token list of a node. -/
def lblTok : Option (List Char) → List Token
  | none => []
  | some l => [l]

/-- The branch-length characters a node contributes (`:`+printed value
when not the sentinel). -/
def blChars : D → List Char
  | D.inf => []
  | b => ':' :: printD b

/-- The branch-length token list of a node. -/
def blTok : D → List Token
  | D.inf => []
  | b => [[':'], printD b]

/-- A token as produced by the tokenizer: non-empty and whitespace-free. -/
def goodTok (w : Token) : Prop := w ≠ [] ∧ ∀ c ∈ w, isSpaceC c = false

theorem childErase_count_ne {ch : Nat → List Nat} {op : Option Nat} {n m : Nat}
    (hm : m ≠ n) (q : Nat) : ((childErase ch op n) q).count m = (ch q).count m := by
  cases op with
  | none => rfl
  | some q0 =>
    by_cases hq : q = q0
    · subst hq
      simp only [childErase, Function.update_same]
      exact List.count_erase_of_ne hm _
    · simp only [childErase, Function.update_noteq hq]

theorem childAppend_count_ne {ch : Nat → List Nat} {p : Option Nat} {n m : Nat}
    (hm : m ≠ n) (q : Nat) : ((childAppend ch p n) q).count m = (ch q).count m := by
  cases p with
  | none => rfl
  | some pp =>
    by_cases hq : q = pp
    · subst hq
      simp [childAppend, Function.update_same, List.count_append, List.count_cons, hm]
    · simp only [childAppend, Function.update_noteq hq]

theorem childErase_mem {ch : Nat → List Nat} {op : Option Nat} {n m q : Nat}
    (h : m ∈ (childErase ch op n) q) : m ∈ ch q := by
  cases op with
  | none => exact h
  | some q0 =>
    by_cases hq : q = q0
    · subst hq
      simp only [childErase, Function.update_same] at h
      exact List.mem_of_mem_erase h
    · simpa only [childErase, Function.update_noteq hq] using h

theorem count_n_childErase {s : ETreeState} {n : Nat} (hWF : WF s) (q : Nat) :
    ((childErase s.children (s.parent n) n) q).count n = 0 := by
  cases hop : s.parent n with
  | none =>
    simp only [childErase]
    rw [List.count_eq_zero]
    intro hmem
    have h2 := (hWF n).2 q hmem
    rw [hop] at h2
    exact Option.noConfusion h2
  | some q0 =>
    by_cases hq : q = q0
    · subst hq
      simp only [childErase, Function.update_same]
      rw [List.count_erase_self, (hWF n).1 _ hop]
    · simp only [childErase, Function.update_noteq hq]
      rw [List.count_eq_zero]
      intro hmem
      have h2 := (hWF n).2 q hmem
      rw [hop] at h2
      injection h2 with h3
      exact hq h3.symm

theorem WF_setParent {s : ETreeState} (hWF : WF s) (n : Nat) (p : Option Nat) :
    WF (eTree_setParent s n p) := by
  intro m
  constructor
  · intro r hr
    by_cases hm : m = n
    · subst hm
      rw [show (eTree_setParent s m p).parent = Function.update s.parent m p from rfl,
        Function.update_same] at hr
      subst hr
      show ((childAppend (childErase s.children (s.parent m) m) (some r) m) r).count m = 1
      simp only [childAppend, Function.update_same, List.count_append]
      rw [count_n_childErase hWF r]
      simp
    · rw [show (eTree_setParent s n p).parent = Function.update s.parent n p from rfl]
        at hr
      rw [Function.update_noteq hm] at hr
      show ((childAppend (childErase s.children (s.parent n) n) p n) r).count m = 1
      rw [childAppend_count_ne hm, childErase_count_ne hm]
      exact (hWF m).1 r hr
  · intro q hq
    by_cases hm : m = n
    · subst hm
      rw [show (eTree_setParent s m p).parent = Function.update s.parent m p from rfl,
        Function.update_same]
      replace hq : m ∈ (childAppend (childErase s.children (s.parent m) m) p m) q := hq
      cases p with
      | none =>
        exfalso
        simp only [childAppend] at hq
        have h0 := count_n_childErase hWF (n := m) q
        rw [List.count_eq_zero] at h0
        exact h0 hq
      | some pp =>
        by_cases hqp : q = pp
        · rw [hqp]
        · exfalso
          simp only [childAppend, Function.update_noteq hqp] at hq
          have h0 := count_n_childErase hWF (n := m) q
          rw [List.count_eq_zero] at h0
          exact h0 hq
    · rw [show (eTree_setParent s n p).parent = Function.update s.parent n p from rfl,
        Function.update_noteq hm]
      apply (hWF m).2 q
      replace hq : m ∈ (childAppend (childErase s.children (s.parent n) n) p n) q := hq
      refine @childErase_mem s.children (s.parent n) n m q ?_
      cases p with
      | none => exact hq
      | some pp =>
        by_cases hqp : q = pp
        · subst hqp
          simp only [childAppend, Function.update_same] at hq
          rcases List.mem_append.1 hq with h | h
          · exact h
          · exact absurd (List.mem_singleton.1 h) hm
        · simpa only [childAppend, Function.update_noteq hqp] using hq

theorem WF_init : WF initState := by
  intro n
  constructor
  · intro p hp
    simp [initState] at hp
  · intro q hq
    simp [initState] at hq

theorem WF_applyOps (ops : List (Nat × Option Nat)) {s : ETreeState} (hWF : WF s) :
    WF (applyOps ops s) := by
  induction ops generalizing s with
  | nil => exact hWF
  | cons op ops ih => exact ih (WF_setParent hWF op.1 op.2)

theorem digit_char_facts : ∀ d < 10, (toDigitChar d).isDigit = true ∧
    digitVal (toDigitChar d) = d := by decide

theorem digit_char_ne : ∀ c : Char, c.isDigit = true →
    c ≠ '-' ∧ c ≠ '+' ∧ c ≠ 'i' ∧ c ≠ 'I' ∧ c ≠ '.' := by
  intro c h
  refine ⟨?_, ?_, ?_, ?_, ?_⟩ <;> (intro he; subst he; exact absurd h (by decide))

theorem natCharsFuel_digits : ∀ f n, ∀ c ∈ natCharsFuel f n, c.isDigit = true := by
  intro f
  induction f with
  | zero => intro n c hc; exact absurd hc (by simp [natCharsFuel])
  | succ f ih =>
    intro n c hc
    by_cases hn : n = 0
    · simp [natCharsFuel, hn] at hc
    · simp only [natCharsFuel, if_neg hn, List.mem_append, List.mem_singleton] at hc
      rcases hc with hc | hc
      · exact ih _ c hc
      · subst hc
        exact (digit_char_facts (n % 10) (Nat.mod_lt _ (by norm_num))).1

theorem digitsVal_append_single (l : List Char) (c : Char) :
    digitsVal (l ++ [c]) = digitsVal l * 10 + digitVal c := by
  simp [digitsVal, List.foldl_append]

theorem digitsVal_natCharsFuel : ∀ f n, n ≤ f → digitsVal (natCharsFuel f n) = n := by
  intro f
  induction f with
  | zero =>
    intro n hn
    interval_cases n
    rfl
  | succ f ih =>
    intro n hn
    by_cases hn0 : n = 0
    · simp [natCharsFuel, hn0, digitsVal]
    · have hd : n / 10 < n := Nat.div_lt_self (Nat.pos_of_ne_zero hn0) (by norm_num)
      rw [natCharsFuel, if_neg hn0, digitsVal_append_single, ih _ (by omega),
        (digit_char_facts (n % 10) (Nat.mod_lt _ (by norm_num))).2]
      omega

theorem natCharsFuel_length : ∀ f n k, n < 10 ^ k → (natCharsFuel f n).length ≤ k := by
  intro f
  induction f with
  | zero => intro n k _; simp [natCharsFuel]
  | succ f ih =>
    intro n k hk
    by_cases hn0 : n = 0
    · simp [natCharsFuel, hn0]
    · rw [natCharsFuel, if_neg hn0]
      have hkpos : 0 < k := by
        by_contra hh
        have : k = 0 := by omega
        subst this
        simp at hk
        omega
      have hlt : n / 10 < 10 ^ (k - 1) := by
        rw [Nat.div_lt_iff_lt_mul (by norm_num : 0 < 10)]
        calc n < 10 ^ k := hk
        _ = 10 ^ (k - 1) * 10 := by
          rw [← pow_succ]
          congr 1
          omega
      have := ih (n / 10) (k - 1) hlt
      simp only [List.length_append, List.length_singleton]
      omega

theorem digitsVal_cons_zero (l : List Char) : digitsVal ('0' :: l) = digitsVal l := rfl

theorem digitsVal_replicate_zero : ∀ j (l : List Char),
    digitsVal (List.replicate j '0' ++ l) = digitsVal l := by
  intro j
  induction j with
  | zero => intro l; rfl
  | succ j ih =>
    intro l
    rw [List.replicate_succ, List.cons_append, digitsVal_cons_zero, ih]

theorem padFrac6_length {b : Nat} (hb : b < 1000000) : (padFrac6 b).length = 6 := by
  have h1 : (natCharsFuel b b).length ≤ 6 := natCharsFuel_length b b 6 (by norm_num; omega)
  simp only [padFrac6, List.length_append, List.length_replicate]
  omega

theorem padFrac6_digits (b : Nat) : ∀ c ∈ padFrac6 b, c.isDigit = true := by
  intro c hc
  simp only [padFrac6, List.mem_append, List.mem_replicate] at hc
  rcases hc with hc | hc
  · rw [hc.2]; decide
  · exact natCharsFuel_digits b b c hc

theorem digitsVal_padFrac6 (b : Nat) : digitsVal (padFrac6 b) = b := by
  rw [padFrac6, digitsVal_replicate_zero, digitsVal_natCharsFuel b b le_rfl]

theorem natChars_digits (n : Nat) : ∀ c ∈ natChars n, c.isDigit = true := by
  intro c hc
  by_cases hn : n = 0
  · simp [natChars, hn] at hc
    rw [hc]; decide
  · rw [natChars, if_neg hn] at hc
    exact natCharsFuel_digits n n c hc

theorem natChars_ne_nil (n : Nat) : natChars n ≠ [] := by
  by_cases hn : n = 0
  · simp [natChars, hn]
  · rw [natChars, if_neg hn]
    cases hm : n with
    | zero => exact absurd hm hn
    | succ m =>
      simp only [natCharsFuel, if_neg hn]
      simp

theorem digitsVal_natChars (n : Nat) : digitsVal (natChars n) = n := by
  by_cases hn : n = 0
  · simp [natChars, hn, digitsVal, digitVal]
  · rw [natChars, if_neg hn, digitsVal_natCharsFuel n n le_rfl]

theorem takeWhile_all {p : Char → Bool} : ∀ l : List Char, (∀ c ∈ l, p c = true) →
    l.takeWhile p = l ∧ l.dropWhile p = [] := by
  intro l
  induction l with
  | nil => intro _; exact ⟨rfl, rfl⟩
  | cons c cs ih =>
    intro h
    have hc := h c (by simp)
    have := ih (fun d hd => h d (by simp [hd]))
    rw [List.takeWhile_cons, List.dropWhile_cons]
    simp [hc, this.1, this.2]

theorem takeWhile_append_of_all {p : Char → Bool} : ∀ (xs : List Char) (y : Char)
    (ys : List Char), (∀ c ∈ xs, p c = true) → p y = false →
    ((xs ++ y :: ys).takeWhile p = xs ∧ (xs ++ y :: ys).dropWhile p = y :: ys) := by
  intro xs
  induction xs with
  | nil =>
    intro y ys _ hy
    rw [List.nil_append, List.takeWhile_cons, List.dropWhile_cons]
    simp [hy]
  | cons c cs ih =>
    intro y ys h hy
    have hc := h c (by simp)
    have h2 := ih y ys (fun d hd => h d (by simp [hd])) hy
    rw [List.cons_append, List.takeWhile_cons, List.dropWhile_cons]
    simp [hc, h2.1, h2.2]

theorem parseSigned_of_head_digit (neg : Bool) (a : Char) (l : List Char)
    (ha : a.isDigit = true) : parseSigned neg (a :: l) = parseNumPart neg (a :: l) := by
  match l with
  | [] => rfl
  | [_] => rfl
  | b :: c :: l3 =>
    have hcond : ¬((a = 'i' ∨ a = 'I') ∧ (b = 'n' ∨ b = 'N') ∧ (c = 'f' ∨ c = 'F')) := by
      rintro ⟨rfl | rfl, -, -⟩ <;> exact absurd ha (by decide)
    simp only [parseSigned, if_neg hcond]

theorem parseDouble_cons_not_sign (a : Char) (l : List Char) (h1 : a ≠ '-')
    (h2 : a ≠ '+') : parseDouble (a :: l) = parseSigned false (a :: l) := by
  unfold parseDouble
  split
  · rename_i heq
    injection heq with ha
    exact absurd ha h1
  · rename_i heq
    injection heq with ha
    exact absurd ha h2
  · rfl

theorem qneg_eq_neg (q : ℚ) : qneg q = -q := by
  rw [qneg, Rat.mkRat_eq_div]
  push_cast
  rw [neg_div, Rat.num_div_den]

theorem parseUDouble_core (A B : Nat) (hB : B < 1000000) :
    parseUDouble (natChars A ++ '.' :: padFrac6 B) =
      some (mkRat (A * 1000000 + B : Nat) 1000000) := by
  have hdot : ('.' : Char).isDigit = false := by decide
  have h1 := takeWhile_append_of_all (p := Char.isDigit) (natChars A) '.'
    (padFrac6 B) (natChars_digits A) hdot
  have h2 := takeWhile_all (p := Char.isDigit) (padFrac6 B) (padFrac6_digits B)
  have hne : ¬(natChars A = [] ∧ padFrac6 B = []) := fun h => natChars_ne_nil A h.1
  simp only [parseUDouble, h1.1, h1.2, h2.1, h2.2, if_neg hne, applyExp]
  rw [digitsVal_natChars, digitsVal_padFrac6, padFrac6_length hB]
  norm_num

theorem parseDouble_fmt6 (n : Int) :
    parseDouble (fmt6 n) = some (D.val (mkRat n 1000000)) := by
  have hB : n.natAbs % 1000000 < 1000000 := Nat.mod_lt _ (by norm_num)
  obtain ⟨a, l0, hshape⟩ : ∃ a l0, natChars (n.natAbs / 1000000) = a :: l0 := by
    cases hsh : natChars (n.natAbs / 1000000) with
    | nil => exact absurd hsh (natChars_ne_nil _)
    | cons a l0 => exact ⟨a, l0, rfl⟩
  have ha : a.isDigit = true := by
    apply natChars_digits (n.natAbs / 1000000)
    rw [hshape]
    simp
  by_cases hn : n < 0
  · rw [fmt6, if_pos hn, List.singleton_append, hshape, List.cons_append]
    show parseSigned true (a :: (l0 ++ '.' :: padFrac6 (n.natAbs % 1000000))) = _
    rw [parseSigned_of_head_digit true a _ ha, ← List.cons_append, ← hshape]
    simp only [parseNumPart, parseUDouble_core _ _ hB]
    rw [qneg_eq_neg]
    have hd : n.natAbs / 1000000 * 1000000 + n.natAbs % 1000000 = n.natAbs := by
      omega
    rw [hd]
    have hcast : (n.natAbs : ℤ) = -n := by omega
    rw [Rat.mkRat_eq_div, Rat.mkRat_eq_div, hcast]
    push_cast
    rw [neg_div, neg_neg]
  · rw [fmt6, if_neg hn, List.nil_append, hshape, List.cons_append,
      parseDouble_cons_not_sign a _ (digit_char_ne a ha).1 (digit_char_ne a ha).2.1,
      parseSigned_of_head_digit false a _ ha, ← List.cons_append, ← hshape]
    simp only [parseNumPart, parseUDouble_core _ _ hB]
    have hd : n.natAbs / 1000000 * 1000000 + n.natAbs % 1000000 = n.natAbs := by
      omega
    rw [hd]
    have hcast : (n.natAbs : ℤ) = n := by omega
    simp only [Bool.false_eq_true, if_false, hcast]

theorem parseDouble_printD_val (q : ℚ) :
    parseDouble (printD (D.val q)) = some (D.val (round6 q)) := by
  rw [printD, round6, parseDouble_fmt6]

theorem parseDouble_printD (d : D) (hd : d ≠ D.inf) :
    parseDouble (printD d) = some (roundD d) := by
  cases d with
  | inf => exact absurd rfl hd
  | negInf => decide
  | val q => exact parseDouble_printD_val q

theorem special_of_isDigit (c : Char) (h : c.isDigit = true) :
    isSpaceC c = false ∧ isStructuralC c = false := by
  constructor
  · cases hsp : isSpaceC c
    · rfl
    · exfalso
      simp only [isSpaceC, Bool.or_eq_true, beq_iff_eq] at hsp
      rcases hsp with ((((rfl | rfl) | rfl) | rfl) | rfl) | rfl <;>
        exact absurd h (by decide)
  · cases hst : isStructuralC c
    · rfl
    · exfalso
      simp only [isStructuralC, Bool.or_eq_true, beq_iff_eq] at hst
      rcases hst with (((rfl | rfl) | rfl) | rfl) | rfl <;> exact absurd h (by decide)

theorem printD_chars (d : D) : ∀ c ∈ printD d,
    isSpaceC c = false ∧ isStructuralC c = false := by
  cases d with
  | inf => decide
  | negInf => decide
  | val q =>
    intro c hc
    simp only [printD, fmt6, List.mem_append, List.mem_cons] at hc
    rcases hc with (hc | hc) | hc | hc
    · split at hc
      · rw [List.mem_singleton] at hc
        subst hc
        exact ⟨rfl, rfl⟩
      · exact absurd hc (by simp)
    · exact special_of_isDigit c (natChars_digits _ c hc)
    · subst hc
      exact ⟨rfl, rfl⟩
    · exact special_of_isDigit c (padFrac6_digits _ c hc)

theorem printD_ne_nil (d : D) : printD d ≠ [] := by
  cases d with
  | inf => decide
  | negInf => decide
  | val q =>
    simp only [printD, fmt6]
    intro h
    rcases List.append_eq_nil.1 h with ⟨-, h2⟩
    exact List.cons_ne_nil _ _ h2

theorem replaceChar_append (a b : List Char) (t : Char) (r : List Char) :
    replaceChar (a ++ b) t r = replaceChar a t r ++ replaceChar b t r := by
  induction a with
  | nil => rfl
  | cons c cs ih =>
    simp only [List.cons_append, replaceChar, List.append_eq, ih, List.append_assoc]

theorem expandTokens_cons (c : Char) (cs : List Char) :
    expandTokens (c :: cs) = expandChar c ++ expandTokens cs := by
  show expandTokens (List.singleton c ++ cs) = _
  by_cases h1 : c = '('
  · subst h1
    simp [expandTokens, replaceChar_append, replaceChar, expandChar, isStructuralC,
      List.singleton]
  by_cases h2 : c = ')'
  · subst h2
    simp [expandTokens, replaceChar_append, replaceChar, expandChar, isStructuralC,
      List.singleton]
  by_cases h3 : c = ':'
  · subst h3
    simp [expandTokens, replaceChar_append, replaceChar, expandChar, isStructuralC,
      List.singleton]
  by_cases h4 : c = ','
  · subst h4
    simp [expandTokens, replaceChar_append, replaceChar, expandChar, isStructuralC,
      List.singleton]
  by_cases h5 : c = ';'
  · subst h5
    simp [expandTokens, replaceChar_append, replaceChar, expandChar, isStructuralC,
      List.singleton]
  · simp [expandTokens, replaceChar_append, replaceChar, expandChar, isStructuralC,
      List.singleton, h1, h2, h3, h4, h5]

theorem expandTokens_eq_flat : ∀ l : List Char, expandTokens l = flatExpand l := by
  intro l
  induction l with
  | nil => rfl
  | cons c cs ih => rw [expandTokens_cons, flatExpand, ih]

theorem flatExpand_append (a b : List Char) :
    flatExpand (a ++ b) = flatExpand a ++ flatExpand b := by
  induction a with
  | nil => rfl
  | cons c cs ih =>
    simp only [List.cons_append, flatExpand, List.append_eq, ih, List.append_assoc]

theorem flatExpand_chars {l : List Char} {c : Char} (h : c ∈ flatExpand l) :
    c ∈ l ∨ c = ' ' := by
  induction l with
  | nil => exact absurd h (by simp [flatExpand])
  | cons d ds ih =>
    rw [flatExpand, List.mem_append] at h
    rcases h with h | h
    · rw [expandChar] at h
      split at h <;> simp only [List.mem_cons, List.mem_singleton] at h
      · rcases h with h | h | h
        · exact Or.inr h
        · exact Or.inl (by simp [h])
        · exact Or.inr (by simpa using h)
      · rcases h with h | h
        · exact Or.inl (by simp [h])
        · exact absurd h (by simp)
    · rcases ih h with h | h
      · exact Or.inl (by simp [h])
      · exact Or.inr h

theorem flatExpand_of_no_structural : ∀ l : List Char,
    (∀ c ∈ l, isStructuralC c = false) → flatExpand l = l := by
  intro l
  induction l with
  | nil => intro _; rfl
  | cons c cs ih =>
    intro h
    rw [flatExpand, expandChar, if_neg (by simp [h c (by simp)]), ih
      (fun d hd => h d (by simp [hd]))]
    rfl

theorem flushWord_append (acc : List Char) (x : List Token) :
    flushWord acc x = flushWord acc [] ++ x := by
  by_cases h : acc = [] <;> simp [flushWord, h]

theorem wordsAux_nil (acc : List Char) : wordsAux [] acc = flushWord acc [] := rfl

theorem wordsAux_cons (c : Char) (cs acc : List Char) :
    wordsAux (c :: cs) acc =
      if isSpaceC c then flushWord acc (wordsAux cs []) else wordsAux cs (c :: acc) := rfl

theorem wordsAux_space (b : List Char) : ∀ (a acc : List Char),
    wordsAux (a ++ ' ' :: b) acc = wordsAux a acc ++ wordsAux b [] := by
  intro a
  induction a with
  | nil =>
    intro acc
    rw [List.nil_append]
    show wordsAux (' ' :: b) acc = wordsAux [] acc ++ wordsAux b []
    rw [wordsAux_cons, if_pos (by decide), wordsAux_nil]
    exact flushWord_append acc _
  | cons c cs ih =>
    intro acc
    rw [List.cons_append, wordsAux_cons, wordsAux_cons]
    by_cases hc : isSpaceC c = true
    · rw [if_pos hc, if_pos hc, ih []]
      rw [flushWord_append acc (wordsAux cs [] ++ wordsAux b []),
        flushWord_append acc (wordsAux cs []), List.append_assoc]
    · rw [if_neg hc, if_neg hc, ih (c :: acc)]

theorem wordsAux_all_nonspace : ∀ (l acc : List Char),
    (∀ c ∈ l, isSpaceC c = false) →
    wordsAux l acc = flushWord (l.reverse ++ acc) [] := by
  intro l
  induction l with
  | nil => intro acc _; rfl
  | cons c cs ih =>
    intro acc h
    rw [wordsAux_cons, if_neg (by simp [h c (by simp)]), ih (c :: acc)
      (fun d hd => h d (by simp [hd]))]
    congr 1
    simp

theorem words_single (w : List Char) (hne : w ≠ [])
    (h : ∀ c ∈ w, isSpaceC c = false) : wordsAux w [] = [w] := by
  rw [wordsAux_all_nonspace w [] h, List.append_nil, flushWord,
    if_neg (by simp [hne]), List.reverse_reverse]

theorem wordsAux_tokens_nonspace : ∀ (l acc : List Char),
    (∀ c ∈ acc, isSpaceC c = false) → ∀ w ∈ wordsAux l acc,
    w ≠ [] ∧ ∀ c ∈ w, isSpaceC c = false := by
  intro l
  induction l with
  | nil =>
    intro acc hacc w hw
    rw [wordsAux_nil, flushWord] at hw
    split at hw
    · exact absurd hw (by simp)
    · rename_i hne
      rw [List.mem_singleton] at hw
      subst hw
      constructor
      · simpa using hne
      · intro c hc
        exact hacc c (by simpa using hc)
  | cons c cs ih =>
    intro acc hacc w hw
    rw [wordsAux_cons] at hw
    split at hw
    · rw [flushWord] at hw
      split at hw
      · exact ih [] (by simp) w hw
      · rename_i hsp hne
        rw [List.mem_cons] at hw
        rcases hw with rfl | hw
        · constructor
          · simpa using hne
          · intro d hd
            exact hacc d (by simpa using hd)
        · exact ih [] (by simp) w hw
    · rename_i hsp
      refine ih (c :: acc) ?_ w hw
      intro d hd
      rcases List.mem_cons.1 hd with rfl | hd
      · exact Bool.not_eq_true _ ▸ (by simpa using hsp)
      · exact hacc d hd

theorem wordsAux_chars : ∀ (l acc : List Char), ∀ w ∈ wordsAux l acc, ∀ c ∈ w,
    c ∈ l ∨ c ∈ acc := by
  intro l
  induction l with
  | nil =>
    intro acc w hw c hc
    rw [wordsAux_nil, flushWord] at hw
    split at hw
    · exact absurd hw (by simp)
    · rw [List.mem_singleton] at hw
      subst hw
      exact Or.inr (by simpa using hc)
  | cons d ds ih =>
    intro acc w hw c hc
    rw [wordsAux_cons] at hw
    split at hw
    · rw [flushWord] at hw
      split at hw
      · rcases ih [] w hw c hc with h | h
        · exact Or.inl (by simp [h])
        · exact absurd h (by simp)
      · rw [List.mem_cons] at hw
        rcases hw with rfl | hw
        · exact Or.inr (by simpa using hc)
        · rcases ih [] w hw c hc with h | h
          · exact Or.inl (by simp [h])
          · exact absurd h (by simp)
    · rcases ih (d :: acc) w hw c hc with h | h
      · exact Or.inl (by simp [h])
      · rcases List.mem_cons.1 h with rfl | h
        · exact Or.inl (by simp)
        · exact Or.inr h

theorem tokenize_tokens_nonspace (l : List Char) : ∀ w ∈ tokenize l,
    w ≠ [] ∧ ∀ c ∈ w, isSpaceC c = false :=
  wordsAux_tokens_nonspace _ [] (by simp)

theorem tokenize_chars (l : List Char) : ∀ w ∈ tokenize l, ∀ c ∈ w,
    c ∈ l ∨ c = ' ' := by
  intro w hw c hc
  rw [tokenize, stString_getWords, expandTokens_eq_flat] at hw
  rcases wordsAux_chars _ [] w hw c hc with h | h
  · exact flatExpand_chars h
  · exact absurd h (by simp)

theorem words_skip_space (l : List Char) : wordsAux (' ' :: l) [] = wordsAux l [] := by
  rw [wordsAux_cons, if_pos (by decide)]
  rfl

theorem words_structural_mid (c : Char) (l : List Char) (hc : isSpaceC c = false) :
    wordsAux (c :: ' ' :: l) [] = [c] :: wordsAux l [] := by
  rw [wordsAux_cons, if_neg (by simp [hc]), wordsAux_cons, if_pos (by decide)]
  rfl

theorem words_structural (c : Char) (l : List Char) (hc : isSpaceC c = false) :
    wordsAux (' ' :: c :: ' ' :: l) [] = [c] :: wordsAux l [] := by
  rw [words_skip_space, words_structural_mid c l hc]

theorem words_word_append (w l : List Char) (hne : w ≠ [])
    (h : ∀ c ∈ w, isSpaceC c = false) :
    wordsAux (w ++ ' ' :: l) [] = w :: wordsAux l [] := by
  rw [wordsAux_space, words_single w hne h]
  rfl

theorem goodLabelB_spec {l : List Char} (h : goodLabelB l = true) :
    l ≠ [] ∧ ∀ c ∈ l, isSpaceC c = false ∧ isStructuralC c = false := by
  rw [goodLabelB, Bool.and_eq_true] at h
  constructor
  · simpa using h.1
  · intro c hc
    have h2 := h.2
    rw [specLabelB, List.all_eq_true] at h2
    have h3 := h2 c hc
    simp only [Bool.and_eq_true, Bool.not_eq_true'] at h3
    exact h3

theorem specLabelB_spec {l : List Char} (h : specLabelB l = true) :
    ∀ c ∈ l, isSpaceC c = false ∧ isStructuralC c = false := by
  intro c hc
  rw [specLabelB, List.all_eq_true] at h
  have h3 := h c hc
  simp only [Bool.and_eq_true, Bool.not_eq_true'] at h3
  exact h3

theorem flatExpand_printD (b : D) : flatExpand (printD b) = printD b :=
  flatExpand_of_no_structural _ (fun c hc => (printD_chars b c hc).2)

theorem flatExpand_colon_printD (b : D) :
    flatExpand (':' :: printD b) = ' ' :: ':' :: ' ' :: printD b := by
  rw [flatExpand, expandChar, if_pos (by decide), flatExpand_printD]
  rfl

theorem printD_nonspace (b : D) : ∀ c ∈ printD b, isSpaceC c = false :=
  fun c hc => (printD_chars b c hc).1

theorem serializeP_eq (cs : List PTree) (lbl : Option (List Char)) (bl : D) :
    eTree_getNewickTreeStringP (.node cs lbl bl) =
    (match cs with | [] => [] | _ => '(' :: serializeList cs ++ [')'])
      ++ lblChars lbl ++ blChars bl := by
  cases lbl <;> cases bl <;> rfl

theorem tokensS_eq (cs : List PTree) (lbl : Option (List Char)) (bl : D) :
    tokensS (.node cs lbl bl) =
    (match cs with | [] => [] | _ => ['('] :: tokensJoin cs ++ [[')']])
      ++ lblTok lbl ++ blTok bl := by
  cases lbl <;> cases bl <;> rfl

theorem words_tail_part (lbl : Option (List Char)) (bl : D) (rest : List Char)
    (hlbl : ∀ l, lbl = some l → goodLabelB l = true) :
    wordsAux (flatExpand (lblChars lbl ++ blChars bl) ++ ' ' :: rest) [] =
    (lblTok lbl ++ blTok bl) ++ wordsAux rest [] := by
  cases lbl with
  | none =>
    rw [show lblChars none = [] from rfl, show lblTok none = [] from rfl,
      List.nil_append, List.nil_append]
    cases bl with
    | inf =>
      rw [show blChars D.inf = [] from rfl, show blTok D.inf = [] from rfl,
        show flatExpand [] = [] from rfl, List.nil_append, List.nil_append,
        words_skip_space]
    | negInf =>
      rw [show blChars D.negInf = ':' :: printD D.negInf from rfl,
        show blTok D.negInf = [[':'], printD D.negInf] from rfl,
        flatExpand_colon_printD, List.cons_append, List.cons_append, List.cons_append,
        words_structural ':' _ (by decide),
        words_word_append _ _ (printD_ne_nil _) (printD_nonspace _)]
      rfl
    | val q =>
      rw [show blChars (D.val q) = ':' :: printD (D.val q) from rfl,
        show blTok (D.val q) = [[':'], printD (D.val q)] from rfl,
        flatExpand_colon_printD, List.cons_append, List.cons_append, List.cons_append,
        words_structural ':' _ (by decide),
        words_word_append _ _ (printD_ne_nil _) (printD_nonspace _)]
      rfl
  | some l =>
    have hg := goodLabelB_spec (hlbl l rfl)
    have hfl : flatExpand l = l :=
      flatExpand_of_no_structural l (fun c hc => (hg.2 c hc).2)
    have hln : ∀ c ∈ l, isSpaceC c = false := fun c hc => (hg.2 c hc).1
    rw [show lblChars (some l) = l from rfl, show lblTok (some l) = [l] from rfl]
    cases bl with
    | inf =>
      rw [show blChars D.inf = [] from rfl, show blTok D.inf = [] from rfl,
        List.append_nil, hfl, words_word_append l rest hg.1 hln]
      rfl
    | negInf =>
      rw [show blChars D.negInf = ':' :: printD D.negInf from rfl,
        show blTok D.negInf = [[':'], printD D.negInf] from rfl,
        flatExpand_append, hfl, flatExpand_colon_printD]
      rw [show l ++ (' ' :: ':' :: ' ' :: printD D.negInf) ++ ' ' :: rest =
        l ++ ' ' :: (':' :: ' ' :: (printD D.negInf ++ ' ' :: rest)) by simp]
      rw [words_word_append _ _ hg.1 hln, words_structural_mid ':' _ (by decide),
        words_word_append _ _ (printD_ne_nil _) (printD_nonspace _)]
      rfl
    | val q =>
      rw [show blChars (D.val q) = ':' :: printD (D.val q) from rfl,
        show blTok (D.val q) = [[':'], printD (D.val q)] from rfl,
        flatExpand_append, hfl, flatExpand_colon_printD]
      rw [show l ++ (' ' :: ':' :: ' ' :: printD (D.val q)) ++ ' ' :: rest =
        l ++ ' ' :: (':' :: ' ' :: (printD (D.val q) ++ ' ' :: rest)) by simp]
      rw [words_word_append _ _ hg.1 hln, words_structural_mid ':' _ (by decide),
        words_word_append _ _ (printD_ne_nil _) (printD_nonspace _)]
      rfl

theorem words_flat_main : ∀ T : PTree, goodTree T = true → ∀ rest : List Char,
    wordsAux (flatExpand (eTree_getNewickTreeStringP T) ++ ' ' :: rest) [] =
      tokensS T ++ wordsAux rest [] := by
  refine PTree.indT _
    (fun cs => goodTreeL cs = true → ∀ rest : List Char,
      wordsAux (flatExpand (serializeList cs) ++ ' ' :: rest) [] =
        tokensJoin cs ++ wordsAux rest []) ?_ ?_ ?_
  · intro cs lbl bl hQ hgood rest
    simp only [goodTree, Bool.and_eq_true] at hgood
    have hlbl : ∀ l, lbl = some l → goodLabelB l = true := by
      intro l hl
      subst hl
      exact hgood.1
    rw [serializeP_eq, tokensS_eq]
    cases cs with
    | nil =>
      rw [List.nil_append, List.nil_append]
      exact words_tail_part lbl bl rest hlbl
    | cons c cs' =>
      rw [show (match c :: cs' with | [] => [] | _ => '(' :: serializeList (c :: cs') ++ [')'])
          = '(' :: serializeList (c :: cs') ++ [')'] from rfl,
        show (match c :: cs' with | [] => [] | _ => ['('] :: tokensJoin (c :: cs') ++ [[')']])
          = ['('] :: tokensJoin (c :: cs') ++ [[')']] from rfl]
      rw [show ('(' :: serializeList (c :: cs') ++ [')']) ++ lblChars lbl ++ blChars bl =
        '(' :: (serializeList (c :: cs') ++ ')' :: (lblChars lbl ++ blChars bl)) by simp]
      rw [show flatExpand ('(' :: (serializeList (c :: cs') ++
          ')' :: (lblChars lbl ++ blChars bl))) =
        ' ' :: '(' :: ' ' :: (flatExpand (serializeList (c :: cs')) ++
          ' ' :: ')' :: ' ' :: flatExpand (lblChars lbl ++ blChars bl)) by
        rw [flatExpand, flatExpand_append, flatExpand, expandChar, if_pos (by decide),
          expandChar, if_pos (by decide)]
        simp]
      rw [List.cons_append, List.cons_append, List.cons_append,
        words_structural '(' _ (by decide)]
      rw [show (flatExpand (serializeList (c :: cs')) ++
          ' ' :: ')' :: ' ' :: flatExpand (lblChars lbl ++ blChars bl)) ++ ' ' :: rest =
        flatExpand (serializeList (c :: cs')) ++
          ' ' :: (')' :: ' ' :: (flatExpand (lblChars lbl ++ blChars bl) ++ ' ' :: rest))
        by simp]
      rw [hQ hgood.2, words_structural_mid ')' _ (by decide),
        words_tail_part lbl bl rest hlbl]
      simp
  · intro _ rest
    rw [show serializeList [] = [] from rfl, show flatExpand [] = [] from rfl,
      List.nil_append, words_skip_space]
    rfl
  · intro t ts hP hQ hgood rest
    simp only [goodTreeL, Bool.and_eq_true] at hgood
    cases ts with
    | nil => exact hP hgood.1 rest
    | cons u us =>
      rw [show serializeList (t :: u :: us) =
        eTree_getNewickTreeStringP t ++ ',' :: serializeList (u :: us) from rfl]
      rw [flatExpand_append,
        show flatExpand (',' :: serializeList (u :: us)) =
          ' ' :: ',' :: ' ' :: flatExpand (serializeList (u :: us)) by
          rw [flatExpand, expandChar, if_pos (by decide)]; rfl]
      rw [show flatExpand (eTree_getNewickTreeStringP t) ++
          (' ' :: ',' :: ' ' :: flatExpand (serializeList (u :: us))) ++ ' ' :: rest =
        flatExpand (eTree_getNewickTreeStringP t) ++
          ' ' :: (',' :: ' ' :: (flatExpand (serializeList (u :: us)) ++ ' ' :: rest))
          by simp]
      rw [hP hgood.1, words_structural_mid ',' _ (by decide), hQ hgood.2]
      rw [show tokensJoin (t :: u :: us) =
        tokensS t ++ [','] :: tokensJoin (u :: us) from rfl]
      simp

theorem match_cons_ne {α β : Type _} (us : List α) (h : us ≠ []) (a b : β) :
    (match us with | [] => a | _ => b) = b := by
  cases us with
  | nil => exact absurd rfl h
  | cons x xs => rfl

theorem tokenize_serialize (T : PTree) (hT : goodTree T = true) :
    tokenize (eTree_getNewickTreeStringP T ++ [';']) = tokensS T ++ [[';']] := by
  rw [tokenize, stString_getWords, expandTokens_eq_flat, flatExpand_append,
    show flatExpand [';'] = [' ', ';', ' '] by
      rw [flatExpand, expandChar, if_pos (by decide)]; rfl,
    show flatExpand (eTree_getNewickTreeStringP T) ++ [' ', ';', ' '] =
      flatExpand (eTree_getNewickTreeStringP T) ++ ' ' :: (';' :: [' ']) from rfl,
    words_flat_main T hT (';' :: [' '])]
  rfl

theorem getLabelHelper_structural (u : Token) (ts : List Token)
    (hu : u.head? = some ':' ∨ u.head? = some ',' ∨ u.head? = some ';' ∨
      u.head? = some ')') :
    getLabelHelper (u :: ts) = some (none, u :: ts) := by
  cases ts with
  | nil => rw [getLabelHelper, if_pos hu]
  | cons t ts' =>
    rw [getLabelHelper, if_pos hu]
    exact fun h => List.noConfusion h

theorem getLabelHelper_label (l : List Char) (hl : goodLabelB l = true)
    (t : Token) (ts : List Token) :
    getLabelHelper (l :: t :: ts) = some (some l, t :: ts) := by
  have hg := goodLabelB_spec hl
  obtain ⟨c, l', rfl⟩ := List.exists_cons_of_ne_nil hg.1
  have hc2 := (hg.2 c (by simp)).2
  have hcond : ¬((c :: l' : Token).head? = some ':' ∨ (c :: l' : Token).head? = some ',' ∨
      (c :: l' : Token).head? = some ';' ∨ (c :: l' : Token).head? = some ')') := by
    rintro (h | h | h | h) <;>
      (rw [List.head?_cons, Option.some.injEq] at h; subst h; revert hc2; decide)
  rw [getLabelHelper, if_neg hcond]
  · rfl
  · exact fun h => List.noConfusion h

theorem getBLHelper_noColon (u : Token) (ts : List Token)
    (hne : u.head? ≠ some ':') : getBLHelper (u :: ts) = some (D.inf, u :: ts) := by
  cases ts with
  | nil => rw [getBLHelper, if_neg hne]
  | cons t ts' =>
    rw [getBLHelper.eq_def]
    simp only [if_neg hne]

theorem getBLHelper_colon (bl : D) (hbl : bl ≠ D.inf) (u : Token) (ts : List Token) :
    getBLHelper ([':'] :: printD bl :: u :: ts) = some (roundD bl, u :: ts) := by
  rw [getBLHelper.eq_def]
  simp only [List.head?_cons, parseDouble_printD bl hbl]
  rfl

theorem head_ne_colon (u : Token)
    (hu : u.head? = some ',' ∨ u.head? = some ';' ∨ u.head? = some ')') :
    u.head? ≠ some ':' := by
  rcases hu with h | h | h <;> rw [h] <;> simp

theorem head_ne_paren (u : Token)
    (hu : u.head? = some ',' ∨ u.head? = some ';' ∨ u.head? = some ')') :
    u.head? ≠ some '(' := by
  rcases hu with h | h | h <;> rw [h] <;> simp

theorem afterChildren_spec (cs : List PTree) (lbl : Option (List Char)) (bl : D)
    (u : Token) (rest : List Token)
    (hlbl : ∀ l, lbl = some l → goodLabelB l = true)
    (hu : u.head? = some ',' ∨ u.head? = some ';' ∨ u.head? = some ')') :
    afterChildren cs (lblTok lbl ++ (blTok bl ++ u :: rest)) =
      some (.node cs lbl (roundD bl), u :: rest) := by
  have hu' : u.head? = some ':' ∨ u.head? = some ',' ∨ u.head? = some ';' ∨
      u.head? = some ')' := Or.inr hu
  have hcolon : (([':'] : Token).head? = some ':') := rfl
  cases lbl with
  | none =>
    rw [show lblTok none = [] from rfl, List.nil_append]
    cases bl with
    | inf =>
      rw [show blTok D.inf = [] from rfl, List.nil_append]
      simp only [afterChildren, getLabelHelper_structural u rest hu',
        getBLHelper_noColon u rest (head_ne_colon u hu), if_pos hu]
      rfl
    | negInf =>
      rw [show blTok D.negInf ++ u :: rest =
        [':'] :: printD D.negInf :: u :: rest from rfl]
      simp only [afterChildren,
        getLabelHelper_structural [':'] (printD D.negInf :: u :: rest) (Or.inl hcolon),
        getBLHelper_colon D.negInf (by simp) u rest, if_pos hu]
    | val q =>
      rw [show blTok (D.val q) ++ u :: rest =
        [':'] :: printD (D.val q) :: u :: rest from rfl]
      simp only [afterChildren,
        getLabelHelper_structural [':'] (printD (D.val q) :: u :: rest) (Or.inl hcolon),
        getBLHelper_colon (D.val q) (by simp) u rest, if_pos hu]
  | some l =>
    rw [show lblTok (some l) = [l] from rfl, List.singleton_append]
    cases bl with
    | inf =>
      rw [show blTok D.inf = [] from rfl, List.nil_append]
      simp only [afterChildren, getLabelHelper_label l (hlbl l rfl) u rest,
        getBLHelper_noColon u rest (head_ne_colon u hu), if_pos hu]
      rfl
    | negInf =>
      rw [show blTok D.negInf ++ u :: rest =
        [':'] :: printD D.negInf :: u :: rest from rfl]
      simp only [afterChildren,
        getLabelHelper_label l (hlbl l rfl) [':'] (printD D.negInf :: u :: rest),
        getBLHelper_colon D.negInf (by simp) u rest, if_pos hu]
    | val q =>
      rw [show blTok (D.val q) ++ u :: rest =
        [':'] :: printD (D.val q) :: u :: rest from rfl]
      simp only [afterChildren,
        getLabelHelper_label l (hlbl l rfl) [':'] (printD (D.val q) :: u :: rest),
        getBLHelper_colon (D.val q) (by simp) u rest, if_pos hu]

theorem parseSubtree_noparen (f : Nat) (t : Token) (ts : List Token)
    (h : t.head? ≠ some '(') :
    parseSubtree (f + 1) (t :: ts) = afterChildren [] (t :: ts) := by
  rw [parseSubtree.eq_def]
  simp only [if_neg h]

theorem parseSubtree_paren (f : Nat) (ts : List Token) (hne : ts ≠ []) :
    parseSubtree (f + 1) (['('] :: ts) =
      (match parseChildren f ts with
       | none => none
       | some (cs, toks1) =>
         match toks1 with
         | [] => none
         | u :: us =>
           if u.head? = some ')' then
             match us with
             | [] => none
             | _ => afterChildren cs us
           else none) := by
  obtain ⟨t0, ts0, rfl⟩ := List.exists_cons_of_ne_nil hne
  rw [parseSubtree.eq_def]
  norm_num

theorem parseChildren_unfold (f : Nat) (toks : List Token) :
    parseChildren (f + 1) toks =
      (match parseSubtree f toks with
       | none => none
       | some (c, toks1) =>
         match toks1 with
         | [] => none
         | u :: us =>
           if u.length = 1 then
             if u = [','] then
               match us with
               | [] => none
               | _ =>
                 match parseChildren f us with
                 | none => none
                 | some (cs, toks2) => some (c :: cs, toks2)
             else some ([c], u :: us)
           else none) := by
  rw [parseChildren.eq_def]

theorem parse_tokensS :
    ∀ T : PTree, goodTree T = true → ∀ (f : Nat) (u : Token) (rest : List Token),
      (u.head? = some ',' ∨ u.head? = some ';' ∨ u.head? = some ')') →
      2 * (tokensS T).length + 1 ≤ f →
      parseSubtree f (tokensS T ++ u :: rest) = some (roundT T, u :: rest) := by
  refine PTree.indT _
    (fun cs => goodTreeL cs = true → ∀ (f : Nat) (rest : List Token),
      2 * (tokensJoin cs).length + 2 ≤ f → cs ≠ [] →
      parseChildren f (tokensJoin cs ++ [')'] :: rest) =
        some (roundTL cs, [')'] :: rest)) ?_ ?_ ?_
  · intro cs lbl bl hQ hgood f u rest hu hf
    simp only [goodTree, Bool.and_eq_true] at hgood
    have hlbl : ∀ l, lbl = some l → goodLabelB l = true := fun l hl => by
      subst hl; exact hgood.1
    obtain ⟨f', rfl⟩ : ∃ f', f = f' + 1 := ⟨f - 1, by omega⟩
    have hAC := afterChildren_spec (roundTL cs) lbl bl u rest hlbl hu
    cases cs with
    | nil =>
      rw [tokensS_eq,
        show (match ([] : List PTree) with
          | [] => ([] : List Token)
          | _ => ['('] :: tokensJoin [] ++ [[')']]) = [] from rfl,
        List.nil_append, List.append_assoc]
      cases lbl with
      | some l =>
        obtain ⟨c, l', hl⟩ := List.exists_cons_of_ne_nil (goodLabelB_spec (hlbl _ rfl)).1
        have hc := ((goodLabelB_spec (hlbl _ rfl)).2 c (by rw [hl]; simp)).2
        have hne : (l : Token).head? ≠ some '(' := by
          rw [hl, List.head?_cons]
          intro h
          rw [Option.some.injEq] at h
          subst h
          revert hc
          decide
        rw [show lblTok (some l) ++ (blTok bl ++ u :: rest) =
          l :: (blTok bl ++ u :: rest) from rfl]
        rw [parseSubtree_noparen f' _ _ hne]
        exact hAC
      | none =>
        cases bl with
        | inf =>
          rw [show lblTok none ++ (blTok D.inf ++ u :: rest) = u :: rest from rfl,
            parseSubtree_noparen f' _ _ (head_ne_paren u hu)]
          exact hAC
        | negInf =>
          rw [show lblTok none ++ (blTok D.negInf ++ u :: rest) =
            [':'] :: printD D.negInf :: u :: rest from rfl,
            parseSubtree_noparen f' _ _ (by decide)]
          exact hAC
        | val q =>
          rw [show lblTok none ++ (blTok (D.val q) ++ u :: rest) =
            [':'] :: printD (D.val q) :: u :: rest from rfl,
            parseSubtree_noparen f' _ _ (by decide)]
          exact hAC
    | cons c0 cs' =>
      rw [tokensS_eq,
        show (match c0 :: cs' with
          | [] => ([] : List Token)
          | _ => ['('] :: tokensJoin (c0 :: cs') ++ [[')']]) =
          ['('] :: tokensJoin (c0 :: cs') ++ [[')']] from rfl]
      rw [show ((['('] :: tokensJoin (c0 :: cs') ++ [[')']]) ++ lblTok lbl ++ blTok bl)
          ++ u :: rest =
        ['('] :: (tokensJoin (c0 :: cs') ++ [')'] ::
          (lblTok lbl ++ (blTok bl ++ u :: rest))) by simp]
      have htail : lblTok lbl ++ (blTok bl ++ u :: rest) ≠ [] := by
        cases lbl with
        | none =>
          cases bl with
          | inf => simp [lblTok, blTok]
          | negInf => simp [lblTok, blTok]
          | val q => simp [lblTok, blTok]
        | some l => simp [lblTok]
      have hjne : tokensJoin (c0 :: cs') ++ [')'] ::
          (lblTok lbl ++ (blTok bl ++ u :: rest)) ≠ [] := by simp
      rw [parseSubtree_paren f' _ hjne]
      have hflen : 2 * (tokensJoin (c0 :: cs')).length + 2 ≤ f' := by
        have h1 : (tokensS (.node (c0 :: cs') lbl bl)).length =
            (tokensJoin (c0 :: cs')).length + 2 + (lblTok lbl).length +
            (blTok bl).length := by
          rw [tokensS_eq,
            show (match c0 :: cs' with
              | [] => ([] : List Token)
              | _ => ['('] :: tokensJoin (c0 :: cs') ++ [[')']]) =
              ['('] :: tokensJoin (c0 :: cs') ++ [[')']] from rfl]
          simp [List.length_append]
          omega
        omega
      rw [hQ hgood.2 f' (lblTok lbl ++ (blTok bl ++ u :: rest)) hflen
        (List.cons_ne_nil c0 cs')]
      cases lbl with
      | some l => exact hAC
      | none =>
        cases bl with
        | inf => exact hAC
        | negInf => exact hAC
        | val q => exact hAC
  · intro _ f rest _ hne
    exact absurd rfl hne
  · intro t ts hP hQ hgood f rest hf _
    simp only [goodTreeL, Bool.and_eq_true] at hgood
    obtain ⟨f', rfl⟩ : ∃ f', f = f' + 1 := ⟨f - 1, by omega⟩
    rw [parseChildren_unfold]
    cases ts with
    | nil =>
      have hEq : tokensJoin [t] = tokensS t := rfl
      rw [hEq]
      rw [hP hgood.1 f' [')'] rest (Or.inr (Or.inr rfl)) (by
        rw [hEq] at hf
        omega)]
      simp
      rfl
    | cons u2 us2 =>
      have hEq : tokensJoin (t :: u2 :: us2) =
        tokensS t ++ [','] :: tokensJoin (u2 :: us2) := rfl
      rw [hEq]
      rw [show (tokensS t ++ [','] :: tokensJoin (u2 :: us2)) ++ [')'] :: rest =
        tokensS t ++ [','] :: (tokensJoin (u2 :: us2) ++ [')'] :: rest) by simp]
      have hlen : (tokensJoin (t :: u2 :: us2)).length =
          (tokensS t).length + 1 + (tokensJoin (u2 :: us2)).length := by
        rw [hEq]
        simp [List.length_append]
        omega
      rw [hP hgood.1 f' [','] (tokensJoin (u2 :: us2) ++ [')'] :: rest)
        (Or.inl rfl) (by omega)]
      have hXne : tokensJoin (u2 :: us2) ++ [')'] :: rest ≠ [] := by simp
      have hQ' := hQ hgood.2 f' rest (by omega) (List.cons_ne_nil u2 us2)
      obtain ⟨x0, xs0, hX⟩ := List.exists_cons_of_ne_nil hXne
      rw [hX] at hQ'
      rw [hX]
      show (match parseChildren f' (x0 :: xs0) with
        | none => none
        | some (cs, toks2) => some (roundT t :: cs, toks2)) =
        some (roundTL (t :: u2 :: us2), [')'] :: rest)
      rw [hQ']
      rfl

theorem parseL_eq (l : List Char) :
    eTree_parseNewickStringL l =
      (match tokenize l with
       | [] => none
       | _ =>
         match parseSubtree (2 * (tokenize l).length + 2) (tokenize l) with
         | none => none
         | some (t, rest) =>
           match rest with
           | [] => none
           | u :: _ => if u.head? = some ';' then some t else none) := rfl

theorem eTree_roundtrip (T : PTree) (hT : goodTree T = true) :
    eTree_parseNewickString (eTree_getNewickTreeString T) = some (roundT T) := by
  have hp := parse_tokensS T hT (2 * (tokensS T ++ [[';']]).length + 2) [';'] []
    (Or.inr (Or.inl rfl)) (by simp [List.length_append]; omega)
  obtain ⟨y0, ys, hY⟩ := List.exists_cons_of_ne_nil
    (show tokensS T ++ [[';']] ≠ [] by simp)
  rw [eTree_parseNewickString, eTree_getNewickTreeString,
    show (String.mk (eTree_getNewickTreeStringP T ++ [';'])).data =
      eTree_getNewickTreeStringP T ++ [';'] from rfl,
    parseL_eq, tokenize_serialize T hT]
  rw [hY] at hp ⊢
  show (match parseSubtree (2 * (y0 :: ys).length + 2) (y0 :: ys) with
    | none => none
    | some (t, rest) =>
      match rest with
      | [] => none
      | u :: _ => if u.head? = some ';' then some t else none) = some (roundT T)
  rw [hp]
  rfl

theorem getLabelHelper_inv {toks : List Token} {lbl : Option (List Char)}
    {toks1 : List Token} (h : getLabelHelper toks = some (lbl, toks1))
    (hg : ∀ w ∈ toks, goodTok w) :
    (∀ l, lbl = some l → goodTok l) ∧ ∀ w ∈ toks1, w ∈ toks := by
  cases toks with
  | nil => exact absurd h (by simp [getLabelHelper])
  | cons t ts =>
    simp only [getLabelHelper.eq_def] at h
    split at h
    · injection h with h2
      injection h2 with h3 h4
      subst h3
      subst h4
      exact ⟨fun l hl => Option.noConfusion hl, fun w hw => hw⟩
    · split at h
      · exact absurd h (by simp)
      · injection h with h2
        injection h2 with h3 h4
        subst h3
        subst h4
        refine ⟨fun l hl => ?_, fun w hw => by simp [hw]⟩
        injection hl with h5
        subst h5
        exact hg t (by simp)

theorem getBLHelper_inv {toks : List Token} {bl : D} {toks1 : List Token}
    (h : getBLHelper toks = some (bl, toks1)) : ∀ w ∈ toks1, w ∈ toks := by
  cases toks with
  | nil => exact absurd h (by simp [getBLHelper])
  | cons t ts =>
    simp only [getBLHelper.eq_def] at h
    split at h
    · split at h
      · exact absurd h (by simp)
      · split at h
        · exact absurd h (by simp)
        · split at h
          · exact absurd h (by simp)
          · injection h with h2
            injection h2 with h3 h4
            subst h4
            rename_i u us hpd v vs
            intro w hw
            simp only [List.mem_cons] at hw ⊢
            tauto
    · injection h with h2
      injection h2 with h3 h4
      subst h4
      exact fun w hw => hw

theorem afterChildren_inv {cs : List PTree} {toks : List Token} {t : PTree}
    {rest : List Token} (h : afterChildren cs toks = some (t, rest))
    (hg : ∀ w ∈ toks, goodTok w) :
    (∃ lbl bl, t = PTree.node cs lbl bl ∧ (∀ l, lbl = some l → goodTok l)) ∧
      ∀ w ∈ rest, w ∈ toks := by
  rw [afterChildren] at h
  split at h
  · exact absurd h (by simp)
  · rename_i pr1 lbl toks1 hL
    split at h
    · exact absurd h (by simp)
    · rename_i pr2 bl toks2 hB
      have hLi := getLabelHelper_inv hL hg
      have hBi := getBLHelper_inv hB
      split at h
      · exact absurd h (by simp)
      · split at h
        · injection h with h2
          injection h2 with h3 h4
          subst h4
          exact ⟨⟨lbl, bl, h3.symm, hLi.1⟩, fun w hw => hLi.2 w (hBi w hw)⟩
        · exact absurd h (by simp)

theorem labelsOf_node (cs : List PTree) (lbl : Option (List Char)) (bl : D) :
    labelsOf (.node cs lbl bl) = lblTok lbl ++ labelsOfL cs := by
  cases lbl <;> rfl

theorem parse_inv : ∀ f : Nat,
    (∀ toks t rest, parseSubtree f toks = some (t, rest) →
      (∀ w ∈ toks, goodTok w) →
      (∀ l ∈ labelsOf t, goodTok l) ∧ ∀ w ∈ rest, w ∈ toks) ∧
    (∀ toks cs rest, parseChildren f toks = some (cs, rest) →
      (∀ w ∈ toks, goodTok w) →
      (∀ l ∈ labelsOfL cs, goodTok l) ∧ ∀ w ∈ rest, w ∈ toks) := by
  intro f
  induction f with
  | zero =>
    constructor
    · intro toks t rest h _
      exact absurd h (by rw [show parseSubtree 0 toks = none from rfl]; simp)
    · intro toks cs rest h _
      exact absurd h (by rw [show parseChildren 0 toks = none from rfl]; simp)
  | succ f ih =>
    constructor
    · intro toks t rest h hg
      cases toks with
      | nil =>
        exact absurd h (by rw [show parseSubtree (f + 1) [] = none from rfl]; simp)
      | cons t0 ts0 =>
        simp only [parseSubtree.eq_def] at h
        split at h
        · split at h
          · split at h
            · exact absurd h (by simp)
            · split at h
              · exact absurd h (by simp)
              · rename_i pr cs toks1 hpc
                split at h
                · exact absurd h (by simp)
                · split at h
                  · split at h
                    · exact absurd h (by simp)
                    · rename_i u us hup v vs
                      have hchild := ih.2 ts0 cs (u :: us) hpc
                        (fun w hw => hg w (by simp [hw]))
                      have husub : ∀ w ∈ us, w ∈ t0 :: ts0 := by
                        intro w hw
                        have := hchild.2 w (by simp [hw])
                        simp [this]
                      have hac := afterChildren_inv h
                        (fun w hw => hg w (husub w hw))
                      obtain ⟨⟨lbl, bl, rfl, hlblg⟩, hrest⟩ := hac
                      constructor
                      · intro l hl
                        rw [labelsOf_node, List.mem_append] at hl
                        rcases hl with hl | hl
                        · cases lbl with
                          | none => exact absurd hl (by simp [lblTok])
                          | some l0 =>
                            rw [show lblTok (some l0) = [l0] from rfl,
                              List.mem_singleton] at hl
                            subst hl
                            exact hlblg l rfl
                        · exact hchild.1 l hl
                      · exact fun w hw => husub w (hrest w hw)
                  · exact absurd h (by simp)
          · exact absurd h (by simp)
        · have hac := afterChildren_inv h hg
          obtain ⟨⟨lbl, bl, rfl, hlblg⟩, hrest⟩ := hac
          constructor
          · intro l hl
            rw [labelsOf_node, List.mem_append] at hl
            rcases hl with hl | hl
            · cases lbl with
              | none => exact absurd hl (by simp [lblTok])
              | some l0 =>
                rw [show lblTok (some l0) = [l0] from rfl, List.mem_singleton] at hl
                subst hl
                exact hlblg l rfl
            · exact absurd hl (by simp [labelsOfL])
          · exact hrest
    · intro toks cs rest h hg
      rw [parseChildren_unfold] at h
      split at h
      · exact absurd h (by simp)
      · rename_i pr c toks1 hps
        have hsub := ih.1 toks c toks1 hps hg
        split at h
        · exact absurd h (by simp)
        · rename_i u us
          split at h
          · split at h
            · split at h
              · exact absurd h (by simp)
              · split at h
                · exact absurd h (by simp)
                · rename_i v vs hpc2
                  have husub : ∀ w ∈ us, w ∈ toks := by
                    intro w hw
                    exact hsub.2 w (by simp [hw])
                  have hrec := ih.2 us v vs hpc2 (fun w hw => hg w (husub w hw))
                  injection h with h2
                  injection h2 with h3 h4
                  subst h3
                  subst h4
                  constructor
                  · intro l hl
                    rw [show labelsOfL (c :: v) = labelsOf c ++ labelsOfL v from rfl,
                      List.mem_append] at hl
                    rcases hl with hl | hl
                    · exact hsub.1 l hl
                    · exact hrec.1 l hl
                  · exact fun w hw => husub w (hrec.2 w hw)
            · injection h with h2
              injection h2 with h3 h4
              subst h3
              subst h4
              constructor
              · intro l hl
                rw [show labelsOfL [c] = labelsOf c ++ labelsOfL [] from rfl,
                  List.mem_append] at hl
                rcases hl with hl | hl
                · exact hsub.1 l hl
                · exact absurd hl (by simp [labelsOfL])
              · exact hsub.2
          · exact absurd h (by simp)

theorem parse_wrapper_inv (s : String) (t : PTree)
    (h : eTree_parseNewickString s = some t) :
    (∀ l ∈ labelsOf t, goodTok l) ∧ ';' ∈ s.data := by
  rw [eTree_parseNewickString, parseL_eq] at h
  cases htok : tokenize s.data with
  | nil => rw [htok] at h; exact absurd h (by simp)
  | cons w ws =>
    rw [htok] at h
    split at h
    · exact absurd h (by simp)
    · split at h
      · exact absurd h (by simp)
      · rename_i t0 rest hps
        split at h
        · exact absurd h (by simp)
        · rename_i u us
          split at h
          · rename_i hu
            injection h with h2
            subst h2
            have hgood : ∀ wt ∈ w :: ws, goodTok wt := by
              intro wt hw
              exact tokenize_tokens_nonspace s.data wt (htok ▸ hw)
            have hinv := (parse_inv _).1 _ _ _ hps hgood
            refine ⟨hinv.1, ?_⟩
            have humem : u ∈ w :: ws := hinv.2 u (by simp)
            obtain ⟨c0, cu, rfl⟩ : ∃ c0 cu, u = c0 :: cu := by
              cases u with
              | nil => exact absurd hu (by simp)
              | cons c0 cu => exact ⟨c0, cu, rfl⟩
            rw [List.head?_cons, Option.some.injEq] at hu
            subst hu
            have hch := tokenize_chars s.data _ (htok ▸ humem) ';' (by simp)
            rcases hch with hin | hin
            · exact hin
            · exact absurd hin (by decide)
          · exact absurd h (by simp)

theorem parse_no_semicolon (s : String) (h : ';' ∉ s.data) :
    eTree_parseNewickString s = none := by
  cases hp : eTree_parseNewickString s with
  | none => rfl
  | some t => exact absurd (parse_wrapper_inv s t hp).2 h

theorem getBLHelper_badNumber (t u : Token) (ts : List Token)
    (hc : t.head? = some ':') (hbad : parseDouble u = none) :
    getBLHelper (t :: u :: ts) = none := by
  simp only [getBLHelper.eq_def, if_pos hc, hbad]

/-- C1 (counterexample to the claim as stated): the empty-string label
satisfies the claim's hypothesis (no whitespace, none of `():,;`), yet the
tree with an empty label serializes to `;` and re-parses with a NULL
label, so the round trip loses it (the branch lengths are untouched:
`roundT` is the identity here). -/
theorem claim1_counterexample :
    specGoodTree (PTree.node [] (some []) D.inf) = true ∧
    eTree_parseNewickString (eTree_getNewickTreeString (PTree.node [] (some []) D.inf)) =
      some (PTree.node [] none D.inf) ∧
    PTree.node [] none D.inf ≠ PTree.node [] (some []) D.inf ∧
    roundT (PTree.node [] (some []) D.inf) = PTree.node [] (some []) D.inf := by
  decide

/-- C1 (amended): for every tree whose labels are non-empty, contain no
whitespace and none of the characters `():,;`, parsing the serialization
reconstructs the tree exactly, up to rounding every finite branch length
to the six fractional digits printed by `%f` (`roundT`). -/
theorem claim1_roundtrip (T : PTree) (hT : goodTree T = true) :
    eTree_parseNewickString (eTree_getNewickTreeString T) = some (roundT T) :=
  eTree_roundtrip T hT

theorem claim1_roundtrip_witness :
    goodTree (PTree.node [PTree.node [] (some ['A']) (D.val 1)] (some ['r']) D.inf)
      = true ∧
    eTree_parseNewickString (eTree_getNewickTreeString
        (PTree.node [PTree.node [] (some ['A']) (D.val 1)] (some ['r']) D.inf)) =
      some (roundT (PTree.node [PTree.node [] (some ['A']) (D.val 1)] (some ['r'])
        D.inf)) :=
  ⟨by decide, claim1_roundtrip _ (by decide)⟩

/-- C2: the single-parent invariant holds after any sequence of
`eTree_setParent` operations on constructed nodes, and a single
`eTree_setParent` removes the node from the old parent's child list and
appends it to the new parent's list (exactly one occurrence, in no other
list), or detaches it entirely when the new parent is NULL. -/
theorem claim2_singleParent :
    (∀ ops : List (Nat × Option Nat), WF (applyOps ops initState)) ∧
    (∀ (s : ETreeState) (n : Nat) (p : Option Nat), WF s →
      (eTree_setParent s n p).parent n = p ∧
      (p = none → ∀ q, n ∉ (eTree_setParent s n p).children q) ∧
      (∀ pp, p = some pp → ((eTree_setParent s n p).children pp).count n = 1 ∧
        ∀ q, q ≠ pp → n ∉ (eTree_setParent s n p).children q)) := by
  constructor
  · exact fun ops => WF_applyOps ops WF_init
  · intro s n p hWF
    have hWF' := WF_setParent hWF n p
    have hpar : (eTree_setParent s n p).parent n = p := by
      show Function.update s.parent n p n = p
      rw [Function.update_same]
    refine ⟨hpar, ?_, ?_⟩
    · intro hp q hmem
      have h2 := (hWF' n).2 q hmem
      rw [hpar, hp] at h2
      exact Option.noConfusion h2
    · intro pp hp
      subst hp
      constructor
      · exact (hWF' n).1 pp (by rw [hpar])
      · intro q hq hmem
        have h2 := (hWF' n).2 q hmem
        rw [hpar] at h2
        injection h2 with h3
        exact hq h3.symm

theorem claim2_singleParent_witness :
    (eTree_setParent initState 5 (some 3)).parent 5 = some 3 ∧
    ((eTree_setParent initState 5 (some 3)).children 3).count 5 = 1 ∧
    5 ∉ (eTree_setParent initState 5 (some 3)).children 4 := by
  have h := claim2_singleParent.2 initState 5 (some 3) WF_init
  exact ⟨h.1, (h.2.2 3 rfl).1, (h.2.2 3 rfl).2 4 (by decide)⟩

/-- C3 (counterexample to the claim as stated): `eTree_setParent`
performs no cycle check, so making two fresh nodes each other's parent
creates a parent cycle — following parent links from node 0 returns to
node 0 after two steps, so node 0 is both ancestor and descendant of
itself. -/
theorem claim3_counterexample :
    parentIterN (applyOps [(1, some 0), (0, some 1)] initState) 2 0 = some 0 ∧
    (applyOps [(1, some 0), (0, some 1)] initState).parent 0 = some 1 ∧
    (applyOps [(1, some 0), (0, some 1)] initState).parent 1 = some 0 := by
  decide

/-- C3 (amended): atomic remove-then-attach does guarantee that no node
is ever a child of two different parents under any sequence of
`eTree_setParent` operations; it does not prevent parent cycles (a node
can become both ancestor and descendant of itself). -/
theorem claim3_noTwoParents (ops : List (Nat × Option Nat)) (n q q' : Nat)
    (hne : q ≠ q') (hq : n ∈ (applyOps ops initState).children q) :
    n ∉ (applyOps ops initState).children q' := by
  intro hq'
  have hWF := WF_applyOps ops WF_init
  have h1 := (hWF n).2 q hq
  have h2 := (hWF n).2 q' hq'
  rw [h1] at h2
  injection h2 with h3
  exact hne h3

theorem claim3_noTwoParents_witness :
    1 ∈ (applyOps [(1, some 0)] initState).children 0 ∧
    1 ∉ (applyOps [(1, some 0)] initState).children 1 :=
  ⟨by decide, claim3_noTwoParents [(1, some 0)] 1 0 1 (by decide) (by decide)⟩

/-- C4: parsing `"(A:1,B:2,(C:3,D:4):5);"` yields a root with exactly
three children in order — leaf `A` with length 1, leaf `B` with length
2, and an internal node with length 5 whose two leaf children are `C`
with length 3 and `D` with length 4 — and serializing the result gives a
string that re-parses to the same tree. -/
theorem claim4_concreteParse :
    eTree_parseNewickString "(A:1,B:2,(C:3,D:4):5);" =
      some (PTree.node
        [PTree.node [] (some ['A']) (D.val 1),
         PTree.node [] (some ['B']) (D.val 2),
         PTree.node [PTree.node [] (some ['C']) (D.val 3),
           PTree.node [] (some ['D']) (D.val 4)] none (D.val 5)]
        none D.inf) ∧
    eTree_parseNewickString (eTree_getNewickTreeString
      (PTree.node
        [PTree.node [] (some ['A']) (D.val 1),
         PTree.node [] (some ['B']) (D.val 2),
         PTree.node [PTree.node [] (some ['C']) (D.val 3),
           PTree.node [] (some ['D']) (D.val 4)] none (D.val 5)]
        none D.inf)) =
      some (PTree.node
        [PTree.node [] (some ['A']) (D.val 1),
         PTree.node [] (some ['B']) (D.val 2),
         PTree.node [PTree.node [] (some ['C']) (D.val 3),
           PTree.node [] (some ['D']) (D.val 4)] none (D.val 5)]
        none D.inf) := by
  decide

/-- C5: a freshly constructed node has branch length `INFINITY`, a
sentinel distinct from `0.0`; and the serializer's output is the
children/label part followed by a `:`+branchlength suffix that is
present exactly when the branch length is not the sentinel. -/
theorem claim5_sentinel :
    eTree_construct.branchLength = D.inf ∧
    D.inf ≠ D.val 0 ∧
    (∀ t : PTree, eTree_getNewickTreeStringP t = childLabelPart t ++ lengthSuffix t) ∧
    (∀ t : PTree, lengthSuffix t = [] ↔ t.branchLength = D.inf) := by
  refine ⟨rfl, by decide, ?_, ?_⟩
  · intro t
    cases t with
    | node cs lbl bl => cases bl <;> cases lbl <;> rfl
  · intro t
    cases t with
    | node cs lbl bl =>
      cases bl with
      | inf => simp [lengthSuffix, PTree.branchLength]
      | negInf => simp [lengthSuffix, PTree.branchLength]
      | val q => simp [lengthSuffix, PTree.branchLength]

/-- C6: `eTree_getChild(node, i)` returns the `i`-th child (0-based, in
insertion order) whenever `0 ≤ i < eTree_getChildNumber node`, and fails
(assertion) whenever `i < 0` or `i ≥` the child count. -/
theorem claim6_getChild (t : PTree) (i : Int) :
    (∀ _ : 0 ≤ i, ∀ _ : i < eTree_getChildNumber t,
      ∃ hh : i.toNat < t.children.length,
        eTree_getChild t i = some (t.children.get ⟨i.toNat, hh⟩)) ∧
    ((i < 0 ∨ eTree_getChildNumber t ≤ i) → eTree_getChild t i = none) := by
  constructor
  · intro h1 h2
    have hh : i.toNat < t.children.length := by
      rw [eTree_getChildNumber] at h2
      omega
    refine ⟨hh, ?_⟩
    rw [eTree_getChild, dif_pos ⟨h1, h2⟩]
  · intro hor
    rw [eTree_getChild, dif_neg]
    rintro ⟨ha, hb⟩
    rcases hor with h | h <;> omega

theorem claim6_getChild_witness :
    eTree_getChild (PTree.node [eTree_construct] none D.inf) 0 =
      some eTree_construct ∧
    eTree_getChild (PTree.node [eTree_construct] none D.inf) (-1) = none ∧
    eTree_getChild (PTree.node [eTree_construct] none D.inf) 1 = none := by
  refine ⟨?_, ?_, ?_⟩
  · obtain ⟨hh, he⟩ := (claim6_getChild (PTree.node [eTree_construct] none D.inf) 0).1
      (by decide) (by decide)
    exact he
  · exact (claim6_getChild _ (-1)).2 (Or.inl (by decide))
  · exact (claim6_getChild _ 1).2 (Or.inr (by decide))

/-- C7 (counterexample to the claim as stated): everything after the
first parsed `;` is ignored, so the input `"A;)"`, whose parentheses are
mismatched (no `(`, one `)`), parses successfully instead of aborting. -/
theorem claim7_counterexample :
    "A;)".data.count '(' = 0 ∧ "A;)".data.count ')' = 1 ∧
    eTree_parseNewickString "A;)" = some (PTree.node [] (some ['A']) D.inf) := by
  decide

/-- C7 (amended): parse failures are fatal and produce no tree — an
input with no `;` character always fails, and a token after `:` that
`sscanf` cannot read as a number always fails; some parenthesis
mismatches before the terminating `;` also fail (e.g. `"(A;"` and
`"(A,B;"`), but parenthesis imbalance is not detected in general: the
`(` character is not excluded by the label test, so `"(A)(;"` has
mismatched parentheses entirely before the `;` yet parses successfully,
the second `(` token becoming the root's label; and characters after
the first parsed `;` are ignored altogether. -/
theorem claim7_fatalErrors :
    (∀ s : String, ';' ∉ s.data → eTree_parseNewickString s = none) ∧
    (∀ (t u : Token) (ts : List Token), t.head? = some ':' → parseDouble u = none →
      getBLHelper (t :: u :: ts) = none) ∧
    eTree_parseNewickString "(A;" = none ∧
    eTree_parseNewickString "(A,B;" = none ∧
    eTree_parseNewickString "(A)(;" =
      some (PTree.node [PTree.node [] (some ['A']) D.inf] (some ['(']) D.inf) := by
  refine ⟨parse_no_semicolon, ?_, by decide, by decide, by decide⟩
  intro t u ts hc hbad
  exact getBLHelper_badNumber t u ts hc hbad

theorem claim7_fatalErrors_witness :
    eTree_parseNewickString "abc" = none ∧
    getBLHelper [[':'], ['x']] = none :=
  ⟨claim7_fatalErrors.1 "abc" (by decide),
   claim7_fatalErrors.2.1 [':'] ['x'] [] (by decide) (by decide)⟩

/-- C8: during parsing, a current token whose first character is one of
`:`, `,`, `;`, `)` is never taken as a label; any other token is taken
as the node's label (a copy of it); and every label of a successfully
parsed tree is non-empty and whitespace-free (a node given no label
token keeps the NULL label from `eTree_construct`). -/
theorem claim8_labels :
    (∀ (u : Token) (ts : List Token),
      (u.head? = some ':' ∨ u.head? = some ',' ∨ u.head? = some ';' ∨
        u.head? = some ')') →
      getLabelHelper (u :: ts) = some (none, u :: ts)) ∧
    (∀ (t t2 : Token) (ts : List Token),
      ¬(t.head? = some ':' ∨ t.head? = some ',' ∨ t.head? = some ';' ∨
        t.head? = some ')') →
      getLabelHelper (t :: t2 :: ts) = some (some (stString_copy t), t2 :: ts)) ∧
    (∀ (s : String) (T : PTree), eTree_parseNewickString s = some T →
      ∀ l ∈ labelsOf T, l ≠ [] ∧ ∀ c ∈ l, isSpaceC c = false) := by
  refine ⟨getLabelHelper_structural, ?_, ?_⟩
  · intro t t2 ts hc
    rw [getLabelHelper, if_neg hc]
    exact fun h => List.noConfusion h
  · intro s T h
    exact (parse_wrapper_inv s T h).1

theorem claim8_labels_witness :
    getLabelHelper [[','], ['x']] = some (none, [[','], ['x']]) ∧
    getLabelHelper [['A'], [';']] = some (some ['A'], [[';']]) ∧
    (['A'] ≠ [] ∧ ∀ c ∈ ['A'], isSpaceC c = false) :=
  ⟨claim8_labels.1 [','] [['x']] (by decide),
   claim8_labels.2.1 ['A'] [';'] [] (by decide),
   claim8_labels.2.2 "A;" (PTree.node [] (some ['A']) D.inf) (by decide) ['A']
     (by decide)⟩

/-- C9: `eTree_setLabel` is NULL-safe and copying — after the call the
node's label is a copy of the argument (NULL when the argument is NULL),
the previous label is replaced, and nothing else in the node changes. -/
theorem claim9_setLabel (t : PTree) (s : Option (List Char)) :
    (eTree_setLabel t s).label = s ∧
    (eTree_setLabel t s).children = t.children ∧
    (eTree_setLabel t s).branchLength = t.branchLength ∧
    eTree_setLabel t none = PTree.node t.children none t.branchLength := by
  refine ⟨?_, rfl, rfl, rfl⟩
  cases s <;> rfl

/-- C10: `eTree_setBranchLength` stores any value without validation,
including the sentinel; a node whose branch length was explicitly set to
`INFINITY` equals a node that never had a length set (on a fresh node it
equals `eTree_construct` itself), and the serializer omits the length
suffix for it. -/
theorem claim10_setBranchLength :
    (∀ (t : PTree) (d : D), eTree_getBranchLength (eTree_setBranchLength t d) = d) ∧
    (∀ t : PTree, eTree_setBranchLength t D.inf =
      PTree.node t.children t.label D.inf) ∧
    eTree_setBranchLength eTree_construct D.inf = eTree_construct ∧
    (∀ t : PTree, eTree_getNewickTreeStringP (eTree_setBranchLength t D.inf) =
      childLabelPart t) := by
  refine ⟨fun t d => rfl, fun t => rfl, rfl, ?_⟩
  intro t
  cases t with
  | node cs lbl bl =>
    rw [show eTree_setBranchLength (PTree.node cs lbl bl) D.inf =
      PTree.node cs lbl D.inf from rfl, serializeP_eq,
      show blChars D.inf = [] from rfl, List.append_nil]
    cases lbl <;> rfl
